import Mathlib

/-!
# Verification of the LSWMeshFlow geometry ingestion / spatial-analysis core

Shallow embedding of `GeometryConversionUtils.cpp` (OBJ/PLY import and export,
chunk planning, convex-hull wrapper, bounding sphere, inter-vertex distance
statistics) together with proofs settling the specification claims.

Text is modelled as `List Char`; a memory-mapped file is read through
`byteAt`, which returns the NUL character beyond the end of the buffer,
mirroring the zero-filled tail of a `MapViewOfFile` mapping.  Scalar values
appearing in text records are modelled as integers rendered in decimal
(the C++ code streams `float`s; floating-point formatting itself is out of
scope, so the embedding works with the integer-representable values, which
`operator<<` prints exactly as decimal strings and `strtof` reparses exactly).
All scanning loops are structurally recursive on an explicit fuel so that
concrete inputs evaluate by kernel reduction.
-/

namespace LSW

/-- Read a byte of the mapped file; positions past the end of the buffer read
as NUL, like the zero-filled remainder of the mapped page. -/
def byteAt (buf : List Char) (i : Nat) : Char := buf.getD i (Char.ofNat 0)

/-- The whitespace set skipped by `strtoul` / `strtof` before a number. -/
def isSpaceByte (c : Char) : Bool :=
  c = ' ' || c = '\t' || c = '\n' || c = '\r'

/-- Decimal digit test for the numeric scanners. -/
def isDigitByte (c : Char) : Bool := c.isDigit

/-- Value of a decimal digit character. -/
def digitVal (c : Char) : Nat := c.toNat - '0'.toNat

/-- Leading-whitespace skip of the C numeric scanners (fuel-indexed). -/
def skipWsAux (buf : List Char) : Nat → Nat → Nat
  | 0, i => i
  | fuel + 1, i =>
    if isSpaceByte (byteAt buf i) then skipWsAux buf fuel (i + 1) else i

/-- Skip leading whitespace starting at `i`; the sentinel NUL beyond the
buffer stops the scan, so `buf.length + 1 - i` fuel always suffices. -/
def skipWs (buf : List Char) (i : Nat) : Nat :=
  skipWsAux buf (buf.length + 1 - i) i

/-- Accumulating decimal-digit scan (fuel-indexed): reads digits starting at
`i`, returning the accumulated value and the position after the last digit. -/
def takeDigitsAux (buf : List Char) : Nat → Nat → Nat → Nat × Nat
  | 0, i, acc => (acc, i)
  | fuel + 1, i, acc =>
    if isDigitByte (byteAt buf i) then
      takeDigitsAux buf fuel (i + 1) (acc * 10 + digitVal (byteAt buf i))
    else (acc, i)

/-- Read a run of decimal digits starting at `i`. -/
def takeDigits (buf : List Char) (i : Nat) : Nat × Nat :=
  takeDigitsAux buf (buf.length + 1 - i) i 0

/-- Model of `std::strtoul(cursor, &end, 10)` restricted to the non-negative
decimal inputs this importer consumes: skip whitespace, then read a digit
run.  When no digit is found no conversion is performed and the end position
is the original cursor, as in C. -/
def strtoulModel (buf : List Char) (i : Nat) : Nat × Nat :=
  let j := skipWs buf i
  if isDigitByte (byteAt buf j) then takeDigits buf j else (0, i)

/-- Model of `std::strtof(cursor, &end)` restricted to integer-valued decimal
tokens (optionally negative), the only tokens produced by the exporter under
the integer scalar model: skip whitespace, optional minus sign, digit run.
When no digit follows, no conversion is performed and the end position is the
original cursor. -/
def strtofModel (buf : List Char) (i : Nat) : Int × Nat :=
  let j := skipWs buf i
  if byteAt buf j = '-' then
    if isDigitByte (byteAt buf (j + 1)) then
      let r := takeDigits buf (j + 1)
      (-(r.1 : Int), r.2)
    else (0, i)
  else
    if isDigitByte (byteAt buf j) then
      let r := takeDigits buf j
      ((r.1 : Int), r.2)
    else (0, i)

/-- `while (*cursor != '\n' && cursor < end) cursor++;` (fuel-indexed). -/
def skipToNlAux (buf : List Char) (e : Nat) : Nat → Nat → Nat
  | 0, i => i
  | fuel + 1, i =>
    if byteAt buf i ≠ '\n' ∧ i < e then skipToNlAux buf e fuel (i + 1) else i

/-- Advance to the next newline or to `e`, whichever comes first. -/
def skipToNl (buf : List Char) (e i : Nat) : Nat :=
  skipToNlAux buf e (e + 1 - i) i

/-- `while (*cursor != ' ' && *cursor != '\n' && cursor < end) cursor++;`
(the face-record sub-index skip, fuel-indexed). -/
def skipIdxEndAux (buf : List Char) (e : Nat) : Nat → Nat → Nat
  | 0, i => i
  | fuel + 1, i =>
    if byteAt buf i ≠ ' ' ∧ byteAt buf i ≠ '\n' ∧ i < e then
      skipIdxEndAux buf e fuel (i + 1)
    else i

/-- Advance to the next space, newline or `e`. -/
def skipIdxEnd (buf : List Char) (e i : Nat) : Nat :=
  skipIdxEndAux buf e (e + 1 - i) i

/-- Scalar triple of a vertex or normal record (integer scalar model). -/
abbrev Vec3I := Int × Int × Int

/-- Per-worker partial result of the OBJ chunk parser (`struct ChunkData`). -/
structure ChunkData where
  Vertices : List Vec3I
  VertexNormals : List Vec3I
  PolyIndices : List (List Nat)
  deriving DecidableEq, Repr

/-- The cursor position after the optional texture sub-index of a face
vertex token: `cursor++` has already skipped the first `/`; a texture index
is parsed and discarded unless a second `/` follows immediately. -/
def slashTex (buf : List Char) (ca : Nat) : Nat :=
  if byteAt buf ca ≠ '/' then (strtoulModel buf ca).2 else ca

/-- The cursor position after the optional `/texcoord/normal` sub-indices
of a face vertex token starting from the position `c` right after the
vertex index. -/
def slashSkip (buf : List Char) (c : Nat) : Nat :=
  if byteAt buf c = '/' then
    if byteAt buf (slashTex buf (c + 1)) = '/' then
      (strtoulModel buf (slashTex buf (c + 1) + 1)).2
    else slashTex buf (c + 1)
  else c

/-- `// Skip to next index, newline, or end` followed by
`if (*cursor == ' ') cursor++`, applied after the sub-index skip. -/
def faceIdxStep (buf : List Char) (e c : Nat) : Nat :=
  if byteAt buf (skipIdxEnd buf e (slashSkip buf c)) = ' ' then
    skipIdxEnd buf e (slashSkip buf c) + 1
  else skipIdxEnd buf e (slashSkip buf c)

/-- The inner index loop of the face branch of `ParseChunk`:
`while (*cursor != '\n' && cursor < end)` parse an index with `strtoul`
(breaking on no progress or on a parsed `0`), push `index - 1`, skip optional
`/texcoord/normal` sub-indices, then skip to the next index.  Indices are
accumulated in reverse and reversed on exit (modelling `push_back`). -/
def parseFaceAux (buf : List Char) (e : Nat) : Nat → Nat → List Nat → List Nat × Nat
  | 0, i, acc => (acc.reverse, i)
  | fuel + 1, i, acc =>
    if byteAt buf i ≠ '\n' ∧ i < e then
      if (strtoulModel buf i).2 = i then (acc.reverse, i)
      else if (strtoulModel buf i).1 = 0 then (acc.reverse, (strtoulModel buf i).2)
      else
        parseFaceAux buf e fuel (faceIdxStep buf e (strtoulModel buf i).2)
          (((strtoulModel buf i).1 - 1) :: acc)
    else (acc.reverse, i)

/-- The cursor position after a whole face line starting at `i` (start of
the `f ` prefix): run the index loop, skip to the newline, move past it if
still inside the range. -/
def faceLineEnd (buf : List Char) (e i : Nat) : Nat :=
  if skipToNl buf e (parseFaceAux buf e (e + 1 - (i + 2)) (i + 2) []).2 < e then
    skipToNl buf e (parseFaceAux buf e (e + 1 - (i + 2)) (i + 2) []).2 + 1
  else skipToNl buf e (parseFaceAux buf e (e + 1 - (i + 2)) (i + 2) []).2

/-- The cursor position after the three `strtof` calls of a `v `/`vn `
record whose numeric part starts at `c0`. -/
def strtof3End (buf : List Char) (c0 : Nat) : Nat :=
  (strtofModel buf (strtofModel buf (strtofModel buf c0).2).2).2

/-- The scalar triple read by the three `strtof` calls starting at `c0`. -/
def strtof3Vec (buf : List Char) (c0 : Nat) : Vec3I :=
  ((strtofModel buf c0).1, (strtofModel buf (strtofModel buf c0).2).1,
   (strtofModel buf (strtofModel buf (strtofModel buf c0).2).2).1)

/-- The main loop of `ParseChunk` (fuel-indexed; one fuel unit per loop
iteration).  Records are prepended to the recursive result, which yields the
same in-order lists as the source's `push_back` accumulation. -/
def ParseChunkAux (buf : List Char) (e : Nat) : Nat → Nat → ChunkData
  | 0, _ => ⟨[], [], []⟩
  | fuel + 1, i =>
    if i < e then
      if byteAt buf i = '\n' then ParseChunkAux buf e fuel (i + 1)
      else if (byteAt buf i = 'v' ∧ byteAt buf (i + 1) = ' ') ∨
              (byteAt buf i = 'v' ∧ byteAt buf (i + 1) = 'n' ∧ byteAt buf (i + 2) = ' ') then
        if byteAt buf i = 'v' ∧ byteAt buf (i + 1) = 'n' ∧ byteAt buf (i + 2) = ' ' then
          { ParseChunkAux buf e fuel (strtof3End buf (i + 3)) with
            VertexNormals := strtof3Vec buf (i + 3) ::
              (ParseChunkAux buf e fuel (strtof3End buf (i + 3))).VertexNormals }
        else
          { ParseChunkAux buf e fuel (strtof3End buf (i + 2)) with
            Vertices := strtof3Vec buf (i + 2) ::
              (ParseChunkAux buf e fuel (strtof3End buf (i + 2))).Vertices }
      else if byteAt buf i = 'f' ∧ byteAt buf (i + 1) = ' ' then
        if (parseFaceAux buf e (e + 1 - (i + 2)) (i + 2) []).1 = [] then
          ParseChunkAux buf e fuel (faceLineEnd buf e i)
        else
          { ParseChunkAux buf e fuel (faceLineEnd buf e i) with
            PolyIndices := (parseFaceAux buf e (e + 1 - (i + 2)) (i + 2) []).1 ::
              (ParseChunkAux buf e fuel (faceLineEnd buf e i)).PolyIndices }
      else
        ParseChunkAux buf e fuel (skipToNl buf e i)
    else ⟨[], [], []⟩

/-- `ParseChunk(start, end, data)`: parse the byte range `[s, e)`.  Every
loop iteration advances the cursor, so `e - s` fuel suffices. -/
def ParseChunk (buf : List Char) (s e : Nat) : ChunkData :=
  ParseChunkAux buf e (e - s) s

/-- The engine-agnostic geometry buffer (`struct BaseMeshGeometryData`),
generic in the scalar representation of a 3-D position. -/
structure BaseMeshGeometryData (P : Type) where
  Vertices : List P
  PolyIndices : List (List Nat)
  VertexNormals : List P
  deriving DecidableEq, Repr

/-- The chunk-end realignment of the OBJ importer:
`while (*chunk_end != '\n' && chunk_end < file_end) chunk_end++;`
`if (chunk_end != file_end) chunk_end++;`. -/
def objChunkEnd (buf : List Char) (S p : Nat) : Nat :=
  if skipToNl buf S p ≠ S then skipToNl buf S p + 1 else skipToNl buf S p

/-- The chunk ranges computed by `ImportOBJMeshGeometryData` for `W` workers:
nominal starts `i * (S / W)` are used verbatim; only ends are realigned to a
line boundary (the last chunk's nominal end is the file end). -/
def objChunkRanges (buf : List Char) (W : Nat) : List (Nat × Nat) :=
  let S := buf.length
  let cs := S / W
  (List.range W).map fun i =>
    let start := i * cs
    let e0 := if i = W - 1 then S else start + cs
    (start, objChunkEnd buf S e0)

/-- `ImportOBJMeshGeometryData` after the extension / open / map preamble:
split the mapped content into per-worker ranges, parse each range with
`ParseChunk`, and concatenate the partial results in chunk order.  `W` is the
worker count (`1` when `importInParallel` is false, the hardware concurrency
otherwise). -/
def ImportOBJMeshGeometryData (buf : List Char) (W : Nat) : BaseMeshGeometryData Vec3I :=
  let results := (objChunkRanges buf W).map fun r => ParseChunk buf r.1 r.2
  { Vertices := (results.map ChunkData.Vertices).flatten
    PolyIndices := (results.map ChunkData.PolyIndices).flatten
    VertexNormals := (results.map ChunkData.VertexNormals).flatten }

/-! ## PLY point-cloud import -/

/-- The chunk realignment of the PLY importer (applied to the starts of all
chunks but the first, and to all chunk ends):
`while (*p != '\n' && p < file_end) p++;  if (p < file_end) p++;`. -/
def plyAlign (buf : List Char) (S p : Nat) : Nat :=
  if skipToNl buf S p < S then skipToNl buf S p + 1 else skipToNl buf S p

/-- The chunk ranges computed by `ImportPLYPointCloudData` over the vertex
data region (a buffer of size `S`): chunk size `max (S / W) 1`, starts and
ends both realigned to line boundaries. -/
def plyChunkRanges (buf : List Char) (W : Nat) : List (Nat × Nat) :=
  let S := buf.length
  let cs := max (S / W) 1
  (List.range W).map fun i =>
    let start0 := i * cs
    let e0 := if i = W - 1 then S else start0 + cs
    (if 0 < i then plyAlign buf S start0 else start0, plyAlign buf S e0)

/-- `(*cursor == ' ' || *cursor == '\n') && cursor < end` leading-whitespace
skip of `ParsePointCloudChunk` (fuel-indexed). -/
def skipSpNlAux (buf : List Char) (e : Nat) : Nat → Nat → Nat
  | 0, i => i
  | fuel + 1, i =>
    if (byteAt buf i = ' ' ∨ byteAt buf i = '\n') ∧ i < e then
      skipSpNlAux buf e fuel (i + 1)
    else i

/-- Skip spaces and newlines at the head of a point-cloud line. -/
def skipSpNl (buf : List Char) (e i : Nat) : Nat :=
  skipSpNlAux buf e (e + 1 - i) i

/-- Fold a digit list into its decimal value. -/
def natOfDigits (ds : List Char) : Nat :=
  ds.foldl (fun a c => a * 10 + digitVal c) 0

/-- One `iss >> v` extraction of an integer-valued coordinate from the
remainder of a line: skip stream whitespace, optional minus sign, a
non-empty digit run; returns the value and the unconsumed remainder. -/
def parseIntTok (s : List Char) : Option (Int × List Char) :=
  let s0 := s.dropWhile fun c => isSpaceByte c
  match s0 with
  | '-' :: s1 =>
    let ds := s1.takeWhile fun c => isDigitByte c
    if ds = [] then none
    else some (-(natOfDigits ds : Int), s1.dropWhile fun c => isDigitByte c)
  | _ =>
    let ds := s0.takeWhile fun c => isDigitByte c
    if ds = [] then none
    else some ((natOfDigits ds : Int), s0.dropWhile fun c => isDigitByte c)

/-- `iss >> vertex[0] >> vertex[1] >> vertex[2]` on one extracted line. -/
def parse3Ints (s : List Char) : Option Vec3I := do
  let (a, s1) ← parseIntTok s
  let (b, s2) ← parseIntTok s1
  let (c, _) ← parseIntTok s2
  pure (a, b, c)

/-- The loop of `ParsePointCloudChunk` (fuel-indexed): skip leading
whitespace, extract the next complete line (an incomplete final line is
discarded), strip a trailing carriage return, parse three coordinates
(a failing line is skipped), and continue after the newline. -/
def ParsePointCloudChunkAux (buf : List Char) (e : Nat) : Nat → Nat → List Vec3I
  | 0, _ => []
  | fuel + 1, i =>
    if i < e then
      let c := skipSpNl buf e i
      if c ≥ e then []
      else
        let j := skipToNl buf e c
        if byteAt buf j ≠ '\n' ∧ j = e then []
        else
          let lineRaw := (List.range (j - c)).map fun k => byteAt buf (c + k)
          let line := if lineRaw.getLast? = some '\r' then lineRaw.dropLast else lineRaw
          let c2 := if j < e then j + 1 else j
          let rest := ParsePointCloudChunkAux buf e fuel c2
          match parse3Ints line with
          | some v => v :: rest
          | none => rest
    else []

/-- `ParsePointCloudChunk(start, end, data)` on the byte range `[s, e)`. -/
def ParsePointCloudChunk (buf : List Char) (s e : Nat) : List Vec3I :=
  ParsePointCloudChunkAux buf e (e - s) s

/-- `while (*cursor != '\n' && *cursor != '\0')` line scan of the PLY header
reader (fuel-indexed; the sentinel NUL past the buffer end bounds it). -/
def skipToNlNulAux (buf : List Char) : Nat → Nat → Nat
  | 0, i => i
  | fuel + 1, i =>
    if byteAt buf i ≠ '\n' ∧ byteAt buf i ≠ Char.ofNat 0 then
      skipToNlNulAux buf fuel (i + 1)
    else i

/-- Advance to the next newline or NUL. -/
def skipToNlNul (buf : List Char) (i : Nat) : Nat :=
  skipToNlNulAux buf (buf.length + 1 - i) i

/-- `iss >> element >> vertex >> vertexCount` on an `element vertex` header
line: the third whitespace-delimited token must begin with a digit run,
which is its parsed (non-negative) value. -/
def parseCountTok (line : List Char) : Option Nat :=
  let s1 := ((line.dropWhile fun c => isSpaceByte c).dropWhile fun c => ¬ isSpaceByte c)
  let s2 := ((s1.dropWhile fun c => isSpaceByte c).dropWhile fun c => ¬ isSpaceByte c)
  let s3 := s2.dropWhile fun c => isSpaceByte c
  let ds := s3.takeWhile fun c => isDigitByte c
  if ds = [] then none else some (natOfDigits ds)

/-- The line loop of `ReadPLYVertexHeader` (fuel-indexed): scan lines until a
NUL; a line with prefix `element vertex` updates the running count when its
third token parses (a failed parse only logs and continues, and such a line
is never literally `end_header`, so folding the count update before the
`end_header` test is faithful); a literal `end_header` line stops the scan.
Returns the count and the cursor position after the last consumed line. -/
def ReadPLYVertexHeaderAux (buf : List Char) : Nat → Nat → Nat → Nat × Nat
  | 0, i, count => (count, i)
  | fuel + 1, i, count =>
    if byteAt buf i ≠ Char.ofNat 0 then
      let j := skipToNlNul buf i
      let lineRaw := (List.range (j - i)).map fun k => byteAt buf (i + k)
      let line := if lineRaw.getLast? = some '\r' then lineRaw.dropLast else lineRaw
      let next := if byteAt buf j ≠ Char.ofNat 0 then j + 1 else j
      let count2 :=
        if line.take 14 = "element vertex".toList then
          match parseCountTok line with
          | some n => n
          | none => count
        else count
      if line = "end_header".toList then (count2, next)
      else ReadPLYVertexHeaderAux buf fuel next count2
    else (count, i)

/-- `ReadPLYVertexHeader(start)`: scan the header from the start of the
mapped file; returns the vertex count read from the header (0 when absent)
and the offset where the scan stopped. -/
def ReadPLYVertexHeader (buf : List Char) : Nat × Nat :=
  ReadPLYVertexHeaderAux buf (buf.length + 2) 0 0

/-- `ImportPLYPointCloudData` after the extension / open / map preamble.
`base` is the (nonzero) address where `MapViewOfFile` placed the content, so
`vertexDataStart == 0` compares `base + offset` with the null pointer.  `W`
is the worker count.  Returns `none` exactly when the source returns an
empty optional after the map step. -/
def ImportPLYPointCloudData (base : Nat) (content : List Char) (W : Nat) :
    Option (List Vec3I) :=
  let S := content.length
  let hdr := ReadPLYVertexHeader content
  let pos := hdr.2
  if base + pos = 0 then none
  else if S ≤ pos then none
  else
    let dataBuf := content.drop pos
    let chunks := plyChunkRanges dataBuf W
    some ((chunks.map fun r => ParsePointCloudChunk dataBuf r.1 r.2).flatten)

/-! ## Decimal rendering and the OBJ exporter -/

/-- Decimal digits of a natural number, most significant first
(fuel-indexed; `n + 1` fuel suffices since `n < 10 ^ (n + 1)`). -/
def natDigitsAux : Nat → Nat → List Char
  | 0, _ => []
  | fuel + 1, n =>
    if n < 10 then [Char.ofNat ('0'.toNat + n)]
    else natDigitsAux fuel (n / 10) ++ [Char.ofNat ('0'.toNat + n % 10)]

/-- Decimal rendering of a natural number. -/
def natDigits (n : Nat) : List Char := natDigitsAux (n + 1) n

/-- `operator<<` rendering of an integer-valued scalar. -/
def renderInt : Int → List Char
  | .ofNat n => natDigits n
  | .negSucc m => '-' :: natDigits (m + 1)

/-- One `v x y z` line written by the OBJ exporter. -/
def vLine (v : Vec3I) : List Char :=
  'v' :: ' ' :: (renderInt v.1 ++ ' ' :: (renderInt v.2.1 ++ ' ' :: (renderInt v.2.2 ++ ['\n'])))

/-- One `vn x y z` line written by the OBJ exporter. -/
def vnLine (v : Vec3I) : List Char :=
  'v' :: 'n' :: ' ' :: (renderInt v.1 ++ ' ' :: (renderInt v.2.1 ++ ' ' :: (renderInt v.2.2 ++ ['\n'])))

/-- One `f i1 i2 ...` line written by the OBJ exporter (1-based indices). -/
def fLine (idxs : List Nat) : List Char :=
  'f' :: ((idxs.map fun ix => ' ' :: natDigits (ix + 1)).flatten ++ ['\n'])

/-- The file content written by `ExportBaseMeshGeometryDataToOBJ`: all
vertex lines, then all normal lines (none when the buffer has no normals),
then all face lines, in input order. -/
def ExportBaseMeshGeometryDataToOBJContent (b : BaseMeshGeometryData Vec3I) : List Char :=
  (b.Vertices.map vLine).flatten ++ (b.VertexNormals.map vnLine).flatten ++
    (b.PolyIndices.map fLine).flatten

/-! ## Extension dispatch (entry preambles of the I/O operations) -/

/-- Modelled from the spec: `Utils::ExtractLowercaseFileExtensionFromPath`
(its implementation, `src/utils/StringUtils.*`, is not among the provided
sources; §6 of the spec keys dispatch on "the lowercase file extension"):
the lowercase of the characters after the final `.` of the path, empty when
the path contains no `.`. -/
def ExtractLowercaseFileExtensionFromPath (path : String) : String :=
  let cs := path.toList
  if cs.contains '.' then
    String.mk (((cs.reverse.takeWhile fun c => c ≠ '.').reverse).map Char.toLower)
  else ""

/-- What an import/export operation does before any file I/O: reject the
path outright, or proceed to open the file. -/
inductive EntryOutcome
  | rejected
  | opensFile
  deriving DecidableEq, Repr

/-- Entry preamble of `ImportOBJMeshGeometryData`: rejects unless the
lowercase extension is `obj`, before opening the file. -/
def ImportOBJMeshGeometryDataEntry (path : String) : EntryOutcome :=
  if ExtractLowercaseFileExtensionFromPath path ≠ "obj" then .rejected else .opensFile

/-- Entry preamble of `ImportPLYPointCloudData`: rejects unless the
lowercase extension is `ply`. -/
def ImportPLYPointCloudDataEntry (path : String) : EntryOutcome :=
  if ExtractLowercaseFileExtensionFromPath path ≠ "ply" then .rejected else .opensFile

/-- Entry preamble of `ImportPLYPointCloudDataMainThread`: rejects unless
the lowercase extension is `ply`. -/
def ImportPLYPointCloudDataMainThreadEntry (path : String) : EntryOutcome :=
  if ExtractLowercaseFileExtensionFromPath path ≠ "ply" then .rejected else .opensFile

/-- Entry preamble of `ExportBaseMeshGeometryDataToOBJ`: the source opens
`std::ofstream file(absFileName)` immediately, with no extension check. -/
def ExportBaseMeshGeometryDataToOBJEntry (_path : String) : EntryOutcome :=
  .opensFile

/-- Entry preamble of `ExportBaseMeshGeometryDataToVTK`: the source opens
the output stream immediately, with no extension check. -/
def ExportBaseMeshGeometryDataToVTKEntry (_path : String) : EntryOutcome :=
  .opensFile

/-- Entry preamble of `ExportSampledVerticesToPLY`: rejects unless the
lowercase extension is `ply`. -/
def ExportSampledVerticesToPLYEntry (path : String) : EntryOutcome :=
  if ExtractLowercaseFileExtensionFromPath path ≠ "ply" then .rejected else .opensFile

/-- Entry preamble of `ExportPointsToPLY`: rejects unless the lowercase
extension is `ply`. -/
def ExportPointsToPLYEntry (path : String) : EntryOutcome :=
  if ExtractLowercaseFileExtensionFromPath path ≠ "ply" then .rejected else .opensFile

/-- Entry preamble of `ExportPolylinesToOBJ`: rejects unless the lowercase
extension is `obj`. -/
def ExportPolylinesToOBJEntry (path : String) : EntryOutcome :=
  if ExtractLowercaseFileExtensionFromPath path ≠ "obj" then .rejected else .opensFile

/-! ## Sampled-vertex PLY export -/

/-- One `x y z` vertex line of the PLY exporters. -/
def plyVertexLine (v : Vec3I) : List Char :=
  renderInt v.1 ++ ' ' :: (renderInt v.2.1 ++ ' ' :: (renderInt v.2.2 ++ ['\n']))

/-- The fixed ASCII header written by the PLY exporters. -/
def plyHeaderLines (n : Nat) : List (List Char) :=
  ["ply".toList, "format ascii 1.0".toList,
   "element vertex ".toList ++ natDigits n,
   "property float x".toList, "property float y".toList,
   "property float z".toList, "end_header".toList]

/-- `ExportSampledVerticesToPLY`: `mtDistrib s bound k` abstracts the
deterministic `std::mt19937` / `std::uniform_int_distribution` pipeline (the
`k`-th sampled value for the generator seeded with `s`, distributed over
`[0, bound]`); `entropy` models the `std::random_device` draw, consulted
only when no seed is supplied.  Returns the sampled index sequence and the
written lines, or `none` on a rejected extension. -/
def ExportSampledVerticesToPLY (mtDistrib : Nat → Nat → Nat → Nat)
    (mesh : BaseMeshGeometryData Vec3I) (nVerts : Nat) (path : String)
    (seed : Option Nat) (entropy : Nat) :
    Option (List Nat × List (List Char)) :=
  if ExtractLowercaseFileExtensionFromPath path ≠ "ply" then none
  else
    let s := match seed with
      | some v => v
      | none => entropy
    let bound := mesh.Vertices.length - 1
    let indices := (List.range nVerts).map fun k => mtDistrib s bound k
    some (indices,
      plyHeaderLines nVerts ++
        indices.map fun idx => plyVertexLine (mesh.Vertices.getD idx (0, 0, 0)))

/-! ## Convex-hull wrapper -/

/-- Split a flat triangle index buffer into consecutive triples, modelling
the `for (i = 0; i < size; i += 3)` copy loop of the hull wrapper. -/
def toTriples : List Nat → List (List Nat)
  | a :: b :: c :: t => [a, b, c] :: toTriples t
  | _ => []

/-- `ComputeConvexHullFromPoints`.  The parameter `qh` abstracts
`quickhull::QuickHull<float>::getConvexHull` — modelled from the spec
("delegates to an incremental hull algorithm"; the quickhull sources,
`src/quickhull`, are not among the provided sources) — returning the hull's
vertex buffer and flat triangle index buffer.  The guards and the copy into
a `BaseMeshGeometryData` are translated from the wrapper itself. -/
def ComputeConvexHullFromPoints {α : Type} (qh : List α → List α × List Nat)
    (points : List α) : Option (BaseMeshGeometryData α) :=
  if points.length < 4 then none
  else if (qh points).1.length < 4 then none
  else if (qh points).2.length % 3 ≠ 0 then none
  else some ⟨(qh points).1, toTriples (qh points).2, []⟩

/-! ## Bounding sphere (real-arithmetic model of the float code) -/

/-- A 3-D point of the spatial-analysis routines. -/
abbrev Pt := EuclideanSpace ℝ (Fin 3)

/-- Modelled from the spec: `pmp::normalize` (the pmp library sources,
`src/pmp`, are not among the provided sources) — the unit direction of a
nonzero vector, with the zero vector mapped to itself, matching §4.6's
description of moving the center "toward" a point. -/
noncomputable def unitDir (v : Pt) : Pt := ‖v‖⁻¹ • v

/-- One iteration of the expansion pass of `ComputePointCloudBoundingSphere`:
a point outside the current sphere moves the center toward it by half the
excess distance and grows the radius accordingly. -/
noncomputable def sphereStep (s : Pt × ℝ) (p : Pt) : Pt × ℝ :=
  if ‖p - s.1‖ < s.2 then s
  else
    let newRadius := (s.2 + ‖p - s.1‖) / 2
    (s.1 + (newRadius - s.2) • unitDir (p - s.1), newRadius)

/-- `ComputePointCloudBoundingSphere`: throws (modelled as `Except.error`)
on an empty point set; otherwise runs the farthest-point pass from
`points[0]`, forms the initial sphere, and expands it over all points. -/
noncomputable def ComputePointCloudBoundingSphere (points : List Pt) :
    Except String (Pt × ℝ) :=
  match points with
  | [] => .error "Geometry::ComputePointCloudBoundingSphere: points.empty()!\n"
  | p0 :: _ =>
    let radius0 := points.foldl (fun r p => if ‖p - p0‖ < r then r else ‖p - p0‖) 0
    let center1 := (2⁻¹ : ℝ) • (p0 + p0 + radius0 • unitDir (p0 - p0))
    .ok (points.foldl sphereStep (center1, radius0 / 2))

/-! ## k-d tree distance statistics (real-arithmetic model) -/

/-- Modelled from the spec: `nanoflann::KDTreeSingleIndexAdaptor::knnSearch`
(nanoflann is an external dependency; §4.6: "for each point, query its
`k+1` (or `2` for min-distance) nearest neighbors including itself") — the
`k` smallest squared distances from `p` to the indexed point set, in
ascending order; `min k n` results are returned when only `n` points are
indexed. -/
noncomputable def knnSqDists (points : List Pt) (p : Pt) (k : Nat) : List ℝ :=
  letI := Classical.propDecidable
  ((points.map fun q => ‖q - p‖ ^ 2).mergeSort fun a b => a ≤ b).take k

/-- `std::numeric_limits<float>::max() = (2 - 2⁻²³) · 2¹²⁷`. -/
noncomputable def fltMax : ℝ := 2 ^ 128 - 2 ^ 104

/-- The `do_knn_search` lambda of `ComputeMinInterVertexDistance`: a
2-nearest-neighbor query returning `out_dist_sqr[1]`, the squared distance
to the nearest point other than the query point itself.  The read of entry
1 is modelled with default 0; it is in bounds exactly when the query
returns two results (settled separately). -/
noncomputable def minKnnQuery (points : List Pt) (p : Pt) : ℝ :=
  (knnSqDists points p 2).getD 1 0

/-- `ComputeMinInterVertexDistance`: `-1` (with a logged diagnostic) on the
empty set; otherwise the square root of the smallest 2-NN squared distance,
folded from `FLT_MAX`. -/
noncomputable def ComputeMinInterVertexDistance (points : List Pt) : ℝ :=
  match points with
  | [] => -1
  | _ :: _ =>
    Real.sqrt (points.foldl
      (fun m p => if minKnnQuery points p < m then minKnnQuery points p else m) fltMax)

/-- The `do_knn_search` lambda of
`ComputeNearestNeighborMeanInterVertexDistance`: an `nNeighbors`-nearest
query; `0` when it returns no results, otherwise
`sqrt(Σ out_dist_sqr / (num_results - 1))`. -/
noncomputable def meanKnnQuery (points : List Pt) (p : Pt) (nNeighbors : Nat) : ℝ :=
  if (knnSqDists points p nNeighbors).length = 0 then 0
  else Real.sqrt ((knnSqDists points p nNeighbors).sum /
    (((knnSqDists points p nNeighbors).length : ℝ) - 1))

/-- `ComputeNearestNeighborMeanInterVertexDistance`: `-1` (with a logged
diagnostic) on the empty set; otherwise the per-point query values averaged
over all points. -/
noncomputable def ComputeNearestNeighborMeanInterVertexDistance
    (points : List Pt) (nNeighbors : Nat) : ℝ :=
  match points with
  | [] => -1
  | _ :: _ =>
    (points.map fun p => meanKnnQuery points p nNeighbors).sum / (points.length : ℝ)

/-! ## Concrete fixtures and derived chunk-range notions -/

/-- The `i`-th chunk range computed by the PLY importer (the entry of
`plyChunkRanges` at `i`, as a closed form). -/
def plyChunkOf (buf : List Char) (W i : Nat) : Nat × Nat :=
  (if 0 < i then plyAlign buf buf.length (i * max (buf.length / W) 1)
   else i * max (buf.length / W) 1,
   plyAlign buf buf.length
     (if i = W - 1 then buf.length
      else i * max (buf.length / W) 1 + max (buf.length / W) 1))

/-- Boolean check that adjacent chunk ranges do not overlap. -/
def chunksNonOverlapB : List (Nat × Nat) → Bool
  | a :: b :: t => decide (a.2 ≤ b.1) && chunksNonOverlapB (b :: t)
  | _ => true

/-- Chunk ranges are non-overlapping: each range ends no later than the next
one starts. -/
def ChunksNonOverlapping (l : List (Nat × Nat)) : Prop :=
  chunksNonOverlapB l = true

instance : DecidablePred ChunksNonOverlapping := fun l =>
  inferInstanceAs (Decidable (chunksNonOverlapB l = true))

/-- A 16-byte OBJ file of two vertex lines; its midpoint, byte 8, is exactly
the start of the second line. -/
def objFile16 : List Char := "v 0 0 0\nv 1 1 1\n".toList

/-- A PLY file whose header has `end_header` but no `element vertex` line,
followed by one data line. -/
def plyNoCount : List Char := "ply\nend_header\n1 2 3\n".toList

/-- A resolved geometry buffer containing one vertex and one empty polygon
index list. -/
def emptyFaceBuf : BaseMeshGeometryData Vec3I :=
  ⟨[(0, 0, 0)], [[]], []⟩

/-- A trivial abstract hull algorithm used to instantiate the C5 theorem. -/
def qhTriv : List Nat → List Nat × List Nat := fun _ => ([], [])

/-- `rest` is the tail of `buf` starting at position `i`: the lengths agree
and every read at `i + k` (including sentinel reads past the end) equals the
read at `k` in `rest`. -/
def SuffixFrom (buf : List Char) (i : Nat) (rest : List Char) : Prop :=
  i + rest.length = buf.length ∧ ∀ k, byteAt buf (i + k) = byteAt rest k

/-- `ParseChunk` restricted to the tail of the buffer starting at `i` (the
whole-file parse is `parseFrom buf 0`). -/
def parseFrom (buf : List Char) (i : Nat) : ChunkData :=
  ParseChunkAux buf buf.length (buf.length - i) i

/-- The text of the face blocks after the first index of an `f` line. -/
def faceBlocksTail (l : List Nat) : List Char :=
  (l.map fun j => ' ' :: natDigits (j + 1)).flatten

/-- The text of a face line from the first index's digits up to (but not
including) the terminating newline. -/
def digitsBlock : List Nat → List Char
  | [] => []
  | ix :: t => natDigits (ix + 1) ++ faceBlocksTail t

/-! ## Supporting lemmas: convex hull -/

theorem toTriples_mem_length {t : List Nat} :
    ∀ {l : List Nat}, t ∈ toTriples l → t.length = 3
  | [], h => by simp [toTriples] at h
  | [_], h => by simp [toTriples] at h
  | [_, _], h => by simp [toTriples] at h
  | a :: b :: c :: tl, h => by
      simp only [toTriples, List.mem_cons] at h
      rcases h with h | h
      · subst h; rfl
      · exact toTriples_mem_length h

theorem toTriples_flatten : ∀ {l : List Nat}, l.length % 3 = 0 → (toTriples l).flatten = l
  | [], _ => rfl
  | [_], h => by simp at h
  | [_, _], h => by simp at h
  | a :: b :: c :: tl, h => by
      have h3 : tl.length % 3 = 0 := by
        simp only [List.length_cons] at h; omega
      simp [toTriples, toTriples_flatten h3]

/-! ## Supporting lemmas: bounding sphere -/

theorem unitDir_norm_le (v : Pt) : ‖unitDir v‖ ≤ 1 := by
  unfold unitDir
  rcases eq_or_ne v 0 with h0 | h0
  · simp [h0]
  · rw [norm_smul, Real.norm_eq_abs, abs_inv, abs_norm,
      inv_mul_cancel₀ (norm_ne_zero_iff.mpr h0)]

theorem sphereStep_radius_le (s : Pt × ℝ) (p : Pt) : s.2 ≤ (sphereStep s p).2 := by
  unfold sphereStep
  split
  · exact le_refl _
  · rename_i h
    push_neg at h
    simp only
    linarith

theorem sphereStep_center_le (s : Pt × ℝ) (p : Pt) :
    ‖(sphereStep s p).1 - s.1‖ ≤ (sphereStep s p).2 - s.2 := by
  unfold sphereStep
  split
  · simp
  · rename_i h
    push_neg at h
    simp only [add_sub_cancel_left]
    rw [norm_smul, Real.norm_eq_abs, abs_of_nonneg (by linarith)]
    calc ((s.2 + ‖p - s.1‖) / 2 - s.2) * ‖unitDir (p - s.1)‖
        ≤ ((s.2 + ‖p - s.1‖) / 2 - s.2) * 1 :=
          mul_le_mul_of_nonneg_left (unitDir_norm_le _) (by linarith)
      _ = (s.2 + ‖p - s.1‖) / 2 - s.2 := mul_one _

theorem sphereStep_preserves (s : Pt × ℝ) (p q : Pt) (hq : ‖q - s.1‖ ≤ s.2) :
    ‖q - (sphereStep s p).1‖ ≤ (sphereStep s p).2 := by
  have h1 := sphereStep_center_le s p
  calc ‖q - (sphereStep s p).1‖
      ≤ ‖q - s.1‖ + ‖s.1 - (sphereStep s p).1‖ :=
        norm_sub_le_norm_sub_add_norm_sub q s.1 (sphereStep s p).1
    _ ≤ s.2 + ((sphereStep s p).2 - s.2) := by
        rw [norm_sub_rev s.1]
        exact add_le_add hq h1
    _ = (sphereStep s p).2 := by ring

theorem sphereStep_contains (s : Pt × ℝ) (p : Pt) (hr : 0 ≤ s.2) :
    ‖p - (sphereStep s p).1‖ ≤ (sphereStep s p).2 := by
  unfold sphereStep
  split
  · rename_i h; exact le_of_lt h
  · rename_i h
    push_neg at h
    simp only
    rcases eq_or_ne (p - s.1) 0 with h0 | h0
    · have hd : ‖p - s.1‖ = 0 := by rw [h0, norm_zero]
      have hr0 : s.2 = 0 := le_antisymm (hd ▸ h) hr
      rw [unitDir, h0]
      simp [hd, hr0]
    · have hd : 0 < ‖p - s.1‖ := norm_pos_iff.mpr h0
      have hkey : p - (s.1 + ((s.2 + ‖p - s.1‖) / 2 - s.2) • unitDir (p - s.1)) =
          (1 - ((s.2 + ‖p - s.1‖) / 2 - s.2) * ‖p - s.1‖⁻¹) • (p - s.1) := by
        rw [unitDir, smul_smul, sub_smul, one_smul]
        abel
      rw [hkey, norm_smul, Real.norm_eq_abs]
      have ht : ((s.2 + ‖p - s.1‖) / 2 - s.2) * ‖p - s.1‖⁻¹ ≤ 1 := by
        rw [mul_inv_le_iff₀ hd, one_mul]
        linarith
      rw [abs_of_nonneg (by linarith)]
      have hexp : (1 - ((s.2 + ‖p - s.1‖) / 2 - s.2) * ‖p - s.1‖⁻¹) * ‖p - s.1‖ =
          ‖p - s.1‖ - ((s.2 + ‖p - s.1‖) / 2 - s.2) * (‖p - s.1‖⁻¹ * ‖p - s.1‖) := by
        ring
      rw [hexp, inv_mul_cancel₀ (ne_of_gt hd)]
      linarith

theorem sphereStep_radius_nonneg (s : Pt × ℝ) (p : Pt) (hr : 0 ≤ s.2) :
    0 ≤ (sphereStep s p).2 :=
  le_trans hr (sphereStep_radius_le s p)

theorem foldl_sphereStep_radius_le (l : List Pt) (s : Pt × ℝ) :
    s.2 ≤ (l.foldl sphereStep s).2 := by
  induction l generalizing s with
  | nil => exact le_refl _
  | cons p t ih => exact le_trans (sphereStep_radius_le s p) (ih _)

theorem foldl_sphereStep_preserves (l : List Pt) (s : Pt × ℝ) (q : Pt)
    (hq : ‖q - s.1‖ ≤ s.2) :
    ‖q - (l.foldl sphereStep s).1‖ ≤ (l.foldl sphereStep s).2 := by
  induction l generalizing s with
  | nil => exact hq
  | cons p t ih => exact ih _ (sphereStep_preserves s p q hq)

theorem foldl_sphereStep_contains (l : List Pt) (s : Pt × ℝ) (hr : 0 ≤ s.2) :
    ∀ q ∈ l, ‖q - (l.foldl sphereStep s).1‖ ≤ (l.foldl sphereStep s).2 := by
  induction l generalizing s with
  | nil => intro q hq; cases hq
  | cons p t ih =>
    intro q hq
    rcases List.mem_cons.mp hq with rfl | hq
    · exact foldl_sphereStep_preserves t _ q (sphereStep_contains s q hr)
    · exact ih _ (sphereStep_radius_nonneg s p hr) q hq

theorem radiusPass_nonneg (l : List Pt) (p0 : Pt) (r : ℝ) (hr : 0 ≤ r) :
    0 ≤ l.foldl (fun r p => if ‖p - p0‖ < r then r else ‖p - p0‖) r := by
  induction l generalizing r with
  | nil => exact hr
  | cons q t ih =>
    apply ih
    by_cases h : ‖q - p0‖ < r
    · simp only [if_pos h]; exact hr
    · simp only [if_neg h]; exact norm_nonneg _

/-! ## Supporting lemmas: distance statistics -/

theorem knnSqDists_length (points : List Pt) (p : Pt) (k : Nat) :
    (knnSqDists points p k).length = min k points.length := by
  simp [knnSqDists, List.length_take, List.length_mergeSort, List.length_map]

theorem meanKnnQuery_nonneg (points : List Pt) (p : Pt) (k : Nat) :
    0 ≤ meanKnnQuery points p k := by
  unfold meanKnnQuery
  split
  · exact le_refl 0
  · exact Real.sqrt_nonneg _

/-! ## Claim theorems -/

/-- C5: `ComputeConvexHullFromPoints` reports failure (an empty optional),
never a crash (the model is a total function), whenever the input has fewer
than 4 points, or the hull algorithm yields fewer than 4 vertices, or a
triangle index buffer whose length is not a multiple of 3; on success the
returned buffer holds the hull vertex buffer and only length-3 polygon
index lists whose entries are the hull's (0-based) indices copied
verbatim. -/
theorem ComputeConvexHullFromPoints_spec {α : Type}
    (qh : List α → List α × List Nat) (points : List α) :
    (points.length < 4 → ComputeConvexHullFromPoints qh points = none) ∧
    ((qh points).1.length < 4 → ComputeConvexHullFromPoints qh points = none) ∧
    ((qh points).2.length % 3 ≠ 0 → ComputeConvexHullFromPoints qh points = none) ∧
    (∀ mesh, ComputeConvexHullFromPoints qh points = some mesh →
      mesh.Vertices = (qh points).1 ∧
      (∀ poly ∈ mesh.PolyIndices, poly.length = 3) ∧
      mesh.PolyIndices.flatten = (qh points).2) := by
  refine ⟨?_, ?_, ?_, ?_⟩
  · intro h; simp [ComputeConvexHullFromPoints, h]
  · intro h
    unfold ComputeConvexHullFromPoints
    by_cases h4 : points.length < 4 <;> simp [h4, h]
  · intro h
    unfold ComputeConvexHullFromPoints
    by_cases h4 : points.length < 4
    · simp [h4]
    · by_cases h5 : (qh points).1.length < 4 <;> simp [h4, h5, h]
  · intro mesh hm
    unfold ComputeConvexHullFromPoints at hm
    split at hm
    · exact absurd hm (by simp)
    · split at hm
      · exact absurd hm (by simp)
      · split at hm
        · exact absurd hm (by simp)
        · rename_i h4 h5 h6
          obtain rfl := (Option.some.inj hm).symm
          refine ⟨rfl, fun poly hp => toTriples_mem_length hp, ?_⟩
          exact toTriples_flatten (not_not.mp h6)

/-- C5 witness: with three input points the wrapper reports failure. -/
theorem ComputeConvexHullFromPoints_spec_witness :
    ComputeConvexHullFromPoints qhTriv [0, 1, 2] = none :=
  (ComputeConvexHullFromPoints_spec qhTriv [0, 1, 2]).1 (by decide)

/-- C6: `ComputePointCloudBoundingSphere` fails with a reported error (the
`std::invalid_argument` throw, modelled as `Except.error`) on the empty
point set, and on every non-empty point set returns a center and radius
with every input point at distance at most the radius from the center
(hence at most radius + ε for every ε ≥ 0). -/
theorem ComputePointCloudBoundingSphere_spec (points : List Pt) :
    (points = [] → ComputePointCloudBoundingSphere points =
      .error "Geometry::ComputePointCloudBoundingSphere: points.empty()!\n") ∧
    (∀ c r, ComputePointCloudBoundingSphere points = .ok (c, r) →
      ∀ p ∈ points, ‖p - c‖ ≤ r) := by
  constructor
  · rintro rfl; rfl
  · intro c r hok p hp
    match points, hp, hok with
    | p0 :: t, hp, hok =>
      have hr0 : (0:ℝ) ≤ ((p0 :: t).foldl
          (fun r p => if ‖p - p0‖ < r then r else ‖p - p0‖) 0) / 2 :=
        div_nonneg (radiusPass_nonneg (p0 :: t) p0 0 le_rfl) (by norm_num)
      have hmain := foldl_sphereStep_contains (p0 :: t)
        ((2⁻¹ : ℝ) • (p0 + p0 + ((p0 :: t).foldl
            (fun r p => if ‖p - p0‖ < r then r else ‖p - p0‖) 0) • unitDir (p0 - p0)),
         ((p0 :: t).foldl (fun r p => if ‖p - p0‖ < r then r else ‖p - p0‖) 0) / 2)
        hr0 p hp
      simp only [ComputePointCloudBoundingSphere] at hok
      rw [Except.ok.inj hok] at hmain
      exact hmain

/-- C6 witness: the empty point set is reported as an error. -/
theorem ComputePointCloudBoundingSphere_spec_witness :
    ComputePointCloudBoundingSphere [] =
      .error "Geometry::ComputePointCloudBoundingSphere: points.empty()!\n" :=
  (ComputePointCloudBoundingSphere_spec []).1 rfl

/-- C8: on the empty point set both distance statistics return the reserved
value `-1` together with a logged diagnostic (the error report), and on
every non-empty point set they return a non-negative value — so the
empty-set report is disjoint from every genuine distance and is never a
silently defaulted distance value; both model functions are total (no
crash). -/
theorem interVertexDistance_error_reporting :
    ComputeMinInterVertexDistance [] = -1 ∧
    (∀ k, ComputeNearestNeighborMeanInterVertexDistance [] k = -1) ∧
    (∀ points : List Pt, points ≠ [] → 0 ≤ ComputeMinInterVertexDistance points) ∧
    (∀ (points : List Pt) (k : Nat), points ≠ [] →
      0 ≤ ComputeNearestNeighborMeanInterVertexDistance points k) := by
  refine ⟨rfl, fun _ => rfl, ?_, ?_⟩
  · intro points hne
    match points, hne with
    | q :: t, _ =>
      simp only [ComputeMinInterVertexDistance]
      exact Real.sqrt_nonneg _
  · intro points k hne
    match points, hne with
    | q :: t, _ =>
      simp only [ComputeNearestNeighborMeanInterVertexDistance]
      apply div_nonneg
      · apply List.sum_nonneg
        intro x hx
        obtain ⟨y, _, rfl⟩ := List.mem_map.mp hx
        exact meanKnnQuery_nonneg _ _ _
      · positivity

/-- C8 witness: a singleton point set yields a non-negative distance. -/
theorem interVertexDistance_error_reporting_witness :
    0 ≤ ComputeMinInterVertexDistance [(0 : Pt)] :=
  interVertexDistance_error_reporting.2.2.1 [0] (by simp)

/-- C9: for every point set with at least two points, the 2-nearest-neighbor
query of `ComputeMinInterVertexDistance` returns exactly two results, so the
read of `out_dist_sqr[1]` in `minKnnQuery` is in bounds; on a one-point set
the same query returns a single result, so the one-point input lies outside
this guarantee (the function's only explicit guard rejects the empty set). -/
theorem ComputeMinInterVertexDistance_knn_bounds (points : List Pt) (p : Pt) :
    (2 ≤ points.length → (knnSqDists points p 2).length = 2) ∧
    (knnSqDists [p] p 2).length = 1 := by
  constructor
  · intro h
    rw [knnSqDists_length]
    omega
  · rw [knnSqDists_length]; rfl

/-- C9 witness: a two-point set gives a length-2 query result. -/
theorem ComputeMinInterVertexDistance_knn_bounds_witness :
    (knnSqDists [(0 : Pt), 0] 0 2).length = 2 :=
  (ComputeMinInterVertexDistance_knn_bounds [0, 0] 0).1 (by decide)

/-- C10: `ExportSampledVerticesToPLY` is deterministic when a seed is
supplied — the result (sampled index sequence and written lines) does not
depend on the `std::random_device` entropy, for every generator pipeline,
mesh, sample count and path. -/
theorem ExportSampledVerticesToPLY_seed_deterministic
    (mtDistrib : Nat → Nat → Nat → Nat) (mesh : BaseMeshGeometryData Vec3I)
    (nVerts : Nat) (path : String) (s entropy1 entropy2 : Nat) :
    ExportSampledVerticesToPLY mtDistrib mesh nVerts path (some s) entropy1 =
      ExportSampledVerticesToPLY mtDistrib mesh nVerts path (some s) entropy2 := rfl

/-! ## Supporting lemmas: newline realignment -/

theorem le_skipToNlAux (buf : List Char) (e : Nat) :
    ∀ (fuel i : Nat), i ≤ skipToNlAux buf e fuel i
  | 0, i => le_refl i
  | fuel + 1, i => by
      unfold skipToNlAux
      split
      · exact le_trans (Nat.le_succ i) (le_skipToNlAux buf e fuel (i + 1))
      · exact le_refl i

theorem skipToNlAux_le (buf : List Char) (e : Nat) :
    ∀ (fuel i : Nat), i ≤ e → skipToNlAux buf e fuel i ≤ e
  | 0, _, h => h
  | fuel + 1, i, h => by
      unfold skipToNlAux
      split
      · rename_i hg
        exact skipToNlAux_le buf e fuel (i + 1) hg.2
      · exact h

theorem skipToNlAux_stop (buf : List Char) (e : Nat) :
    ∀ (fuel i : Nat), e ≤ i + fuel →
      byteAt buf (skipToNlAux buf e fuel i) = '\n' ∨ e ≤ skipToNlAux buf e fuel i
  | 0, i, h => Or.inr (by simpa using h)
  | fuel + 1, i, h => by
      unfold skipToNlAux
      split
      · exact skipToNlAux_stop buf e fuel (i + 1) (by omega)
      · rename_i hg
        push_neg at hg
        by_cases hn : byteAt buf i = '\n'
        · exact Or.inl hn
        · exact Or.inr (hg hn)

theorem skipToNlAux_no_nl (buf : List Char) (e : Nat) :
    ∀ (fuel i j : Nat), i ≤ j → j < skipToNlAux buf e fuel i → byteAt buf j ≠ '\n'
  | 0, i, j, hij, hj => by unfold skipToNlAux at hj; omega
  | fuel + 1, i, j, hij, hj => by
      unfold skipToNlAux at hj
      split at hj
      · rename_i hg
        rcases Nat.eq_or_lt_of_le hij with rfl | hij'
        · exact hg.1
        · exact skipToNlAux_no_nl buf e fuel (i + 1) j hij' hj
      · omega

theorem le_skipToNl (buf : List Char) (e i : Nat) : i ≤ skipToNl buf e i :=
  le_skipToNlAux buf e _ i

theorem skipToNl_le (buf : List Char) {e i : Nat} (h : i ≤ e) : skipToNl buf e i ≤ e :=
  skipToNlAux_le buf e _ i h

theorem skipToNl_stop (buf : List Char) (e i : Nat) :
    byteAt buf (skipToNl buf e i) = '\n' ∨ e ≤ skipToNl buf e i :=
  skipToNlAux_stop buf e _ i (by omega)

theorem skipToNl_no_nl (buf : List Char) {e i j : Nat} (hij : i ≤ j)
    (hj : j < skipToNl buf e i) : byteAt buf j ≠ '\n' :=
  skipToNlAux_no_nl buf e _ i j hij hj

theorem skipToNl_of_ge (buf : List Char) {e p : Nat} (h : e ≤ p) : skipToNl buf e p = p := by
  unfold skipToNl
  rcases Nat.eq_or_lt_of_le h with rfl | h'
  · have h1 : e + 1 - e = 1 := by omega
    rw [h1]
    unfold skipToNlAux
    simp
  · have h0 : e + 1 - p = 0 := by omega
    rw [h0]
    rfl

theorem skipToNl_mono (buf : List Char) (e : Nat) {p q : Nat} (h : p ≤ q) :
    skipToNl buf e p ≤ skipToNl buf e q := by
  rcases le_or_lt (skipToNl buf e p) q with h1 | h1
  · exact le_trans h1 (le_skipToNl buf e q)
  · by_contra hc
    push_neg at hc
    have hq1 : q ≤ skipToNl buf e q := le_skipToNl buf e q
    have hnn : byteAt buf (skipToNl buf e q) ≠ '\n' :=
      skipToNl_no_nl buf (le_trans h hq1) hc
    rcases skipToNl_stop buf e q with hnl | hge
    · exact hnn hnl
    · rcases le_or_lt p e with hpe | hpe
      · have := skipToNl_le buf hpe
        omega
      · have := skipToNl_of_ge buf (le_of_lt hpe)
        omega

theorem le_plyAlign (buf : List Char) (S p : Nat) : p ≤ plyAlign buf S p := by
  unfold plyAlign
  have := le_skipToNl buf S p
  split <;> omega

theorem plyAlign_le (buf : List Char) {S p : Nat} (h : p ≤ S) : plyAlign buf S p ≤ S := by
  unfold plyAlign
  have := skipToNl_le buf h
  split <;> omega

theorem plyAlign_mono (buf : List Char) (S : Nat) {p q : Nat} (h : p ≤ q) :
    plyAlign buf S p ≤ plyAlign buf S q := by
  unfold plyAlign
  have := skipToNl_mono buf S h
  split <;> split <;> omega

theorem plyAlign_self (buf : List Char) (S : Nat) : plyAlign buf S S = S := by
  unfold plyAlign
  rw [skipToNl_of_ge buf (le_refl S)]
  simp

theorem plyAlign_boundary (buf : List Char) {S p : Nat} (h : p ≤ S) :
    plyAlign buf S p = S ∨ byteAt buf (plyAlign buf S p - 1) = '\n' := by
  unfold plyAlign
  rcases skipToNl_stop buf S p with hnl | hge
  · split
    · right; simpa using hnl
    · left
      have := skipToNl_le buf h
      omega
  · have := skipToNl_le buf h
    left
    split <;> omega

theorem plyChunkRanges_get (buf : List Char) (W i : Nat) (h : i < W) :
    (plyChunkRanges buf W).get ⟨i, by simpa [plyChunkRanges] using h⟩ =
      plyChunkOf buf W i := by
  simp [plyChunkRanges, plyChunkOf]

theorem plyChunk_mul_le (buf : List Char) {W i : Nat} (hW : 1 ≤ W)
    (hWS : W ≤ buf.length) (hi : i ≤ W) :
    i * max (buf.length / W) 1 ≤ buf.length := by
  have h1 : 1 ≤ buf.length / W := Nat.one_le_div_iff hW |>.mpr hWS
  have hmax : max (buf.length / W) 1 = buf.length / W := Nat.max_eq_left h1
  rw [hmax]
  calc i * (buf.length / W) ≤ W * (buf.length / W) := Nat.mul_le_mul_right _ hi
    _ ≤ buf.length := by
        rw [Nat.mul_comm]
        exact Nat.div_mul_le_self _ _

/-! ## Claim theorems: chunk planning and parallel import -/

/-- C1 (code bug): on the 16-byte OBJ file `objFile16`, whose worker-count-2
nominal boundary (byte 8) falls exactly at the start of the second vertex
line, the parallel import parses that line twice while the single-threaded
run parses it once — parallelism changes the result, contradicting the
specification (the OBJ importer realigns only chunk ends, unlike the PLY
one, which also realigns chunk starts). -/
theorem ImportOBJ_parallel_duplicates_boundary_line :
    (ImportOBJMeshGeometryData objFile16 2).Vertices = [(0, 0, 0), (1, 1, 1), (1, 1, 1)] ∧
    (ImportOBJMeshGeometryData objFile16 1).Vertices = [(0, 0, 0), (1, 1, 1)] := by
  constructor <;> decide

/-- C2 counterexample: the chunk ranges the OBJ import computes for
`objFile16` with 2 workers are `[(0,16), (8,16)]` — the first range ends
after the second begins, so the ranges of one import are not
non-overlapping as claimed. -/
theorem objChunkRanges_overlap_cex :
    objChunkRanges objFile16 2 = [(0, 16), (8, 16)] ∧
    ¬ ChunksNonOverlapping (objChunkRanges objFile16 2) := by
  constructor <;> decide

/-- C2 (amended): for the PLY importer's chunk ranges over a data region of
size `S` with `1 ≤ W ≤ S` workers, the `W` ranges are contiguous (each
chunk's realigned end is the next chunk's realigned start), start at 0, end
at `S`, are pairwise non-overlapping, cover `[0, S)` exactly, and every
boundary except the final one either coincides with `S` or lies immediately
after a newline byte.  (The OBJ importer's ranges realign only ends and may
overlap, per the counterexample.) -/
theorem plyChunkRanges_partition (buf : List Char) (W : Nat)
    (hW : 1 ≤ W) (hWS : W ≤ buf.length) :
    (plyChunkRanges buf W).length = W ∧
    (∀ (i : Nat) (h : i < W),
      (plyChunkRanges buf W).get ⟨i, by simpa [plyChunkRanges] using h⟩ =
        plyChunkOf buf W i) ∧
    (plyChunkOf buf W 0).1 = 0 ∧
    (plyChunkOf buf W (W - 1)).2 = buf.length ∧
    (∀ i, i + 1 < W → (plyChunkOf buf W i).2 = (plyChunkOf buf W (i + 1)).1) ∧
    (∀ i, i < W → (plyChunkOf buf W i).1 ≤ (plyChunkOf buf W i).2) ∧
    (∀ i j, i < j → j < W → (plyChunkOf buf W i).2 ≤ (plyChunkOf buf W j).1) ∧
    (∀ x, x < buf.length →
      ∃ i, i < W ∧ (plyChunkOf buf W i).1 ≤ x ∧ x < (plyChunkOf buf W i).2) ∧
    (∀ i, i + 1 < W → (plyChunkOf buf W (i + 1)).1 = buf.length ∨
      byteAt buf ((plyChunkOf buf W (i + 1)).1 - 1) = '\n') := by
  have hocont : ∀ i, i + 1 < W → (plyChunkOf buf W i).2 = (plyChunkOf buf W (i + 1)).1 := by
    intro i h
    have hne : i ≠ W - 1 := by omega
    simp only [plyChunkOf, if_neg hne, if_pos (Nat.succ_pos i)]
    have harith : i * max (buf.length / W) 1 + max (buf.length / W) 1 =
        (i + 1) * max (buf.length / W) 1 := by ring
    rw [harith]
  have hole : ∀ i, i < W → (plyChunkOf buf W i).1 ≤ (plyChunkOf buf W i).2 := by
    intro i h
    simp only [plyChunkOf]
    have hb : i * max (buf.length / W) 1 ≤
        (if i = W - 1 then buf.length
         else i * max (buf.length / W) 1 + max (buf.length / W) 1) := by
      split
      · exact plyChunk_mul_le buf hW hWS (by omega)
      · omega
    split
    · exact plyAlign_mono buf buf.length hb
    · exact le_trans (le_plyAlign buf _ _) (plyAlign_mono buf _ hb)
  refine ⟨by simp [plyChunkRanges], plyChunkRanges_get buf W, ?_, ?_, hocont, hole, ?_, ?_, ?_⟩
  · simp [plyChunkOf]
  · simp only [plyChunkOf, if_pos rfl]
    exact plyAlign_self buf _
  · intro i j hij hj
    induction j with
    | zero => omega
    | succ j ih =>
      rcases Nat.lt_or_ge i j with h' | h'
      · calc (plyChunkOf buf W i).2 ≤ (plyChunkOf buf W j).1 := ih h' (by omega)
          _ ≤ (plyChunkOf buf W j).2 := hole j (by omega)
          _ = (plyChunkOf buf W (j + 1)).1 := hocont j hj
      · have hieq : i = j := by omega
        subst hieq
        exact le_of_eq (hocont i hj)
  · intro x hx
    have hlast : (plyChunkOf buf W (W - 1)).2 = buf.length := by
      simp only [plyChunkOf, if_pos rfl]
      exact plyAlign_self buf _
    have main : ∀ i, i < W → ∀ x, x < (plyChunkOf buf W i).2 →
        ∃ j, j < W ∧ (plyChunkOf buf W j).1 ≤ x ∧ x < (plyChunkOf buf W j).2 := by
      intro i
      induction i with
      | zero =>
        intro h x hx2
        rcases Nat.lt_or_ge x (plyChunkOf buf W 0).1 with hlt | hge
        · simp [plyChunkOf] at hlt
        · exact ⟨0, h, hge, hx2⟩
      | succ i ih =>
        intro h x hx2
        rcases Nat.lt_or_ge x (plyChunkOf buf W (i + 1)).1 with hlt | hge
        · rw [← hocont i h] at hlt
          exact ih (by omega) x hlt
        · exact ⟨i + 1, h, hge, hx2⟩
    have hx2 : x < (plyChunkOf buf W (W - 1)).2 := by omega
    exact main (W - 1) (by omega) x hx2
  · intro i h
    simp only [plyChunkOf, if_pos (Nat.succ_pos i)]
    exact plyAlign_boundary buf (plyChunk_mul_le buf hW hWS (by omega))

/-- C2 witness: the partition properties instantiated on a concrete 4-byte
region with 2 workers. -/
theorem plyChunkRanges_partition_witness :
    (plyChunkRanges "a\nb\n".toList 2).length = 2 ∧
    (plyChunkOf "a\nb\n".toList 2 0).1 = 0 ∧
    (plyChunkOf "a\nb\n".toList 2 1).2 = 4 :=
  ⟨(plyChunkRanges_partition "a\nb\n".toList 2 (by decide) (by decide)).1,
   (plyChunkRanges_partition "a\nb\n".toList 2 (by decide) (by decide)).2.2.1,
   (plyChunkRanges_partition "a\nb\n".toList 2 (by decide) (by decide)).2.2.2.1⟩

/-! ## Claim theorems: extension dispatch -/

/-- C4 counterexample: `ExportBaseMeshGeometryDataToOBJ` called on a path
whose lowercase extension is `ply` (not `obj`) does not reject it — it
proceeds straight to opening the file, so not every operation checks the
extension before I/O. -/
theorem exportOBJ_wrong_extension_opens_file :
    ExtractLowercaseFileExtensionFromPath "mesh.ply" ≠ "obj" ∧
    ExportBaseMeshGeometryDataToOBJEntry "mesh.ply" = .opensFile := by
  constructor
  · decide
  · rfl

/-- C4 (amended): the three importers and the PLY/polyline exporters reject
a path with a mismatched lowercase extension before any I/O, while
`ExportBaseMeshGeometryDataToOBJ` and `ExportBaseMeshGeometryDataToVTK`
open the output file without any extension check. -/
theorem extension_dispatch_spec (path : String) :
    (ExtractLowercaseFileExtensionFromPath path ≠ "obj" →
      ImportOBJMeshGeometryDataEntry path = .rejected) ∧
    (ExtractLowercaseFileExtensionFromPath path ≠ "ply" →
      ImportPLYPointCloudDataEntry path = .rejected) ∧
    (ExtractLowercaseFileExtensionFromPath path ≠ "ply" →
      ImportPLYPointCloudDataMainThreadEntry path = .rejected) ∧
    (ExtractLowercaseFileExtensionFromPath path ≠ "ply" →
      ExportSampledVerticesToPLYEntry path = .rejected) ∧
    (ExtractLowercaseFileExtensionFromPath path ≠ "ply" →
      ExportPointsToPLYEntry path = .rejected) ∧
    (ExtractLowercaseFileExtensionFromPath path ≠ "obj" →
      ExportPolylinesToOBJEntry path = .rejected) ∧
    ExportBaseMeshGeometryDataToOBJEntry path = .opensFile ∧
    ExportBaseMeshGeometryDataToVTKEntry path = .opensFile := by
  refine ⟨?_, ?_, ?_, ?_, ?_, ?_, rfl, rfl⟩ <;>
    · intro h
      simp only [ImportOBJMeshGeometryDataEntry, ImportPLYPointCloudDataEntry,
        ImportPLYPointCloudDataMainThreadEntry, ExportSampledVerticesToPLYEntry,
        ExportPointsToPLYEntry, ExportPolylinesToOBJEntry, if_pos h]

/-- C4 witness: a `.txt` path is rejected by the checking importers. -/
theorem extension_dispatch_spec_witness :
    ImportOBJMeshGeometryDataEntry "cloud.txt" = .rejected ∧
    ImportPLYPointCloudDataEntry "cloud.txt" = .rejected :=
  ⟨(extension_dispatch_spec "cloud.txt").1 (by decide),
   (extension_dispatch_spec "cloud.txt").2.1 (by decide)⟩

/-! ## Claim theorems: PLY header failure propagation -/

/-- C7 (code bug): on a PLY file whose header contains `end_header` but no
`element vertex` line, the header reader reports vertex count 0 (its
"not found" signal, logged as an error), yet `ImportPLYPointCloudData`
still succeeds and returns the parsed points — the never-true pointer test
`vertexDataStart == 0` fails to propagate the header failure, whereas the
claim (and the sibling `ImportPLYPointCloudDataMainThread`) require the
whole import to fail with no points. -/
theorem ImportPLY_missing_vertex_count_succeeds :
    ReadPLYVertexHeader plyNoCount = (0, 15) ∧
    ImportPLYPointCloudData 1 plyNoCount 1 = some [(1, 2, 3)] := by
  constructor <;> decide

/-! ## Claim theorems: OBJ export / import round trip -/

/-- C3 counterexample: the resolved buffer `emptyFaceBuf` (one vertex, one
empty polygon index list — every index vacuously in range) exports to
`"v 0 0 0\nf\n"`, and re-importing that content loses the empty polygon:
the parser only recognizes `f` followed by a space, so the claimed
round-trip equality of polygon index lists fails. -/
theorem exportImport_drops_empty_polygon :
    (ImportOBJMeshGeometryData
        (ExportBaseMeshGeometryDataToOBJContent emptyFaceBuf) 1).PolyIndices = [] ∧
    emptyFaceBuf.PolyIndices = [[]] ∧ ([] : List (List Nat)) ≠ [[]] := by
  refine ⟨by decide, rfl, by decide⟩

/-! ## Supporting lemmas: text round trip (decimal rendering, scanners,
chunk parser) -/

theorem byteAt_lt_length {buf : List Char} {i : Nat}
    (h : byteAt buf i ≠ Char.ofNat 0) : i < buf.length := by
  by_contra hc
  push_neg at hc
  refine h ?_
  simp [byteAt, List.getD, List.getElem?_eq_none hc]

theorem SuffixFrom.byte0 {buf : List Char} {i : Nat} {rest : List Char}
    (h : SuffixFrom buf i rest) : byteAt buf i = byteAt rest 0 := by
  simpa using h.2 0

theorem SuffixFrom.head {buf : List Char} {i : Nat} {c : Char} {rest : List Char}
    (h : SuffixFrom buf i (c :: rest)) : byteAt buf i = c := by
  simpa [byteAt] using h.byte0

theorem SuffixFrom.tail {buf : List Char} {i : Nat} {c : Char} {rest : List Char}
    (h : SuffixFrom buf i (c :: rest)) : SuffixFrom buf (i + 1) rest := by
  constructor
  · have := h.1
    simp only [List.length_cons] at this
    omega
  · intro k
    have := h.2 (1 + k)
    simpa [byteAt, Nat.add_assoc, Nat.add_comm 1 k] using this

theorem SuffixFrom.dropL {buf : List Char} {i : Nat} {L rest : List Char}
    (h : SuffixFrom buf i (L ++ rest)) : SuffixFrom buf (i + L.length) rest := by
  induction L generalizing i with
  | nil => simpa using h
  | cons c t ih =>
    have h2 := (SuffixFrom.tail (by simpa using h))
    have := ih h2
    simpa [Nat.add_assoc, Nat.add_comm 1 t.length] using this

theorem SuffixFrom.of_append (P R : List Char) : SuffixFrom (P ++ R) P.length R := by
  constructor
  · simp
  · intro k
    simp only [byteAt, List.getD, List.get?_eq_getElem?]
    rw [List.getElem?_append_right (Nat.le_add_right _ _)]
    simp

theorem SuffixFrom.lt {buf : List Char} {i : Nat} {c : Char} {rest : List Char}
    (h : SuffixFrom buf i (c :: rest)) : i < buf.length := by
  have := h.1
  simp only [List.length_cons] at this
  omega

theorem space_not_digit {c : Char} (h : isSpaceByte c) : ¬ isDigitByte c := by
  intro hd
  simp only [isSpaceByte, Bool.or_eq_true, decide_eq_true_eq] at h
  rcases h with ((rfl | rfl) | rfl) | rfl <;> simp [isDigitByte] at hd

theorem digit_not_space {c : Char} (h : isDigitByte c) : ¬ isSpaceByte c := by
  intro hs
  exact space_not_digit hs h

theorem digit_ne {c x : Char} (hc : isDigitByte c) (hx : ¬ isDigitByte x) : c ≠ x := by
  intro h
  rw [h] at hc
  exact hx hc

theorem isDigitByte_ofNat {n : Nat} (h : n < 10) :
    isDigitByte (Char.ofNat ('0'.toNat + n)) := by
  interval_cases n <;> decide

theorem digitVal_ofNat {n : Nat} (h : n < 10) :
    digitVal (Char.ofNat ('0'.toNat + n)) = n := by
  interval_cases n <;> decide

theorem natDigitsAux_digits : ∀ (fuel n : Nat) (c : Char),
    c ∈ natDigitsAux fuel n → isDigitByte c
  | 0, _, _, h => by simp [natDigitsAux] at h
  | fuel + 1, n, c, h => by
      unfold natDigitsAux at h
      split at h
      · rename_i hn
        simp only [List.mem_singleton] at h
        subst h
        exact isDigitByte_ofNat hn
      · rcases List.mem_append.mp h with h' | h'
        · exact natDigitsAux_digits fuel (n / 10) c h'
        · simp only [List.mem_singleton] at h'
          subst h'
          exact isDigitByte_ofNat (Nat.mod_lt _ (by norm_num))

theorem natDigitsAux_ne_nil : ∀ (fuel n : Nat), 0 < fuel → natDigitsAux fuel n ≠ []
  | 0, _, h => by omega
  | fuel + 1, n, _ => by
      unfold natDigitsAux
      split
      · simp
      · simp

theorem natDigits_digits {n : Nat} {c : Char} (h : c ∈ natDigits n) : isDigitByte c :=
  natDigitsAux_digits _ n c h

theorem natDigits_ne_nil (n : Nat) : natDigits n ≠ [] :=
  natDigitsAux_ne_nil _ n (Nat.succ_pos n)

theorem natDigitsAux_val : ∀ (fuel n acc : Nat), n < 10 ^ fuel →
    (natDigitsAux fuel n).foldl (fun a c => a * 10 + digitVal c) acc =
      acc * 10 ^ (natDigitsAux fuel n).length + n
  | 0, n, acc, h => by
      have : n = 0 := by simpa using h
      subst this
      simp [natDigitsAux]
  | fuel + 1, n, acc, h => by
      unfold natDigitsAux
      split
      · rename_i hn
        simp only [List.foldl, List.length_singleton, pow_one, digitVal_ofNat hn]
      · rename_i hn
        push_neg at hn
        have hdiv : n / 10 < 10 ^ fuel := by
          rw [Nat.div_lt_iff_lt_mul (by norm_num)]
          calc n < 10 ^ (fuel + 1) := h
            _ = 10 ^ fuel * 10 := by ring
        rw [List.foldl_append, natDigitsAux_val fuel (n / 10) acc hdiv]
        simp only [List.foldl, List.length_append, List.length_singleton,
          digitVal_ofNat (Nat.mod_lt _ (by norm_num : (0:Nat) < 10))]
        have hexp : acc * 10 ^ ((natDigitsAux fuel (n / 10)).length + 1) =
            acc * 10 ^ (natDigitsAux fuel (n / 10)).length * 10 := by ring
        rw [hexp]
        omega

theorem natDigits_val (n : Nat) :
    (natDigits n).foldl (fun a c => a * 10 + digitVal c) 0 = n := by
  have h : n < 10 ^ (n + 1) := by
    calc n < 10 ^ n := Nat.lt_pow_self (by norm_num) n
      _ ≤ 10 ^ (n + 1) := Nat.pow_le_pow_right (by norm_num) (Nat.le_succ n)
  simpa using natDigitsAux_val (n + 1) n 0 h

theorem skipWsAux_succ (buf : List Char) (fuel i : Nat) :
    skipWsAux buf (fuel + 1) i =
      if isSpaceByte (byteAt buf i) then skipWsAux buf fuel (i + 1) else i := rfl

theorem skipWsAux_stop (buf : List Char) (i : Nat)
    (h : ¬ isSpaceByte (byteAt buf i)) : ∀ fuel, skipWsAux buf fuel i = i
  | 0 => rfl
  | fuel + 1 => by rw [skipWsAux_succ, if_neg h]

theorem skipWs_stop {buf : List Char} {i : Nat}
    (h : ¬ isSpaceByte (byteAt buf i)) : skipWs buf i = i :=
  skipWsAux_stop buf i h _

theorem space_ne_nul {c : Char} (h : isSpaceByte c) : c ≠ Char.ofNat 0 := by
  intro hc
  rw [hc] at h
  exact absurd h (by decide)

theorem digit_ne_nul {c : Char} (h : isDigitByte c) : c ≠ Char.ofNat 0 := by
  intro hc
  rw [hc] at h
  exact absurd h (by decide)

theorem skipWs_space {buf : List Char} {i : Nat}
    (h : isSpaceByte (byteAt buf i)) : skipWs buf i = skipWs buf (i + 1) := by
  have hlt : i < buf.length := byteAt_lt_length (space_ne_nul h)
  unfold skipWs
  have h1 : buf.length + 1 - i = (buf.length - i) + 1 := by omega
  have h2 : buf.length + 1 - (i + 1) = buf.length - i := by omega
  rw [h1, h2, skipWsAux_succ, if_pos h]

theorem takeDigitsAux_succ (buf : List Char) (fuel i acc : Nat) :
    takeDigitsAux buf (fuel + 1) i acc =
      if isDigitByte (byteAt buf i) then
        takeDigitsAux buf fuel (i + 1) (acc * 10 + digitVal (byteAt buf i))
      else (acc, i) := rfl

theorem takeDigitsAux_stop (buf : List Char) (i : Nat)
    (h : ¬ isDigitByte (byteAt buf i)) :
    ∀ fuel acc, takeDigitsAux buf fuel i acc = (acc, i)
  | 0, _ => rfl
  | fuel + 1, acc => by rw [takeDigitsAux_succ, if_neg h]

theorem takeDigitsAux_run (buf : List Char) :
    ∀ (ds : List Char) (i acc : Nat) (rest : List Char),
      SuffixFrom buf i (ds ++ rest) → (∀ c ∈ ds, isDigitByte c) →
      ¬ isDigitByte (byteAt rest 0) →
      takeDigitsAux buf (buf.length + 1 - i) i acc =
        (ds.foldl (fun a c => a * 10 + digitVal c) acc, i + ds.length)
  | [], i, acc, rest, hs, _, hstop => by
      have h0 : byteAt buf i = byteAt rest 0 := by
        simpa using (SuffixFrom.byte0 (by simpa using hs))
      rw [takeDigitsAux_stop buf i (h0 ▸ hstop)]
      simp
  | c :: ds, i, acc, rest, hs, hd, hstop => by
      have hs' : SuffixFrom buf i (c :: (ds ++ rest)) := by simpa using hs
      have hc : byteAt buf i = c := hs'.head
      have hcd : isDigitByte c := hd c (List.mem_cons_self c ds)
      have hlt : i < buf.length := byteAt_lt_length (hc ▸ digit_ne_nul hcd)
      have h1 : buf.length + 1 - i = (buf.length - i) + 1 := by omega
      rw [h1, takeDigitsAux_succ, if_pos (hc ▸ hcd), hc]
      rw [show buf.length - i = buf.length + 1 - (i + 1) from by omega]
      rw [takeDigitsAux_run buf ds (i + 1) (acc * 10 + digitVal c) rest hs'.tail
        (fun x hx => hd x (List.mem_cons_of_mem c hx)) hstop]
      have harith : (i + 1) + ds.length = i + (c :: ds).length := by
        simp only [List.length_cons]
        omega
      rw [harith]
      rfl

theorem takeDigits_run {buf : List Char} {ds : List Char} {i : Nat} {rest : List Char}
    (hs : SuffixFrom buf i (ds ++ rest)) (hd : ∀ c ∈ ds, isDigitByte c)
    (hstop : ¬ isDigitByte (byteAt rest 0)) :
    takeDigits buf i = (ds.foldl (fun a c => a * 10 + digitVal c) 0, i + ds.length) :=
  takeDigitsAux_run buf ds i 0 rest hs hd hstop

theorem natDigits_append_suffix {buf : List Char} {i v : Nat} {rest : List Char}
    (hs : SuffixFrom buf i (natDigits v ++ rest)) :
    byteAt buf i ≠ Char.ofNat 0 ∧ isDigitByte (byteAt buf i) := by
  rcases hnd : natDigits v with _ | ⟨c, ds⟩
  · exact absurd hnd (natDigits_ne_nil v)
  · rw [hnd] at hs
    have hs' : SuffixFrom buf i (c :: (ds ++ rest)) := by simpa using hs
    have hc : byteAt buf i = c := hs'.head
    have hcd : isDigitByte c := natDigits_digits (hnd ▸ List.mem_cons_self c ds)
    exact ⟨hc ▸ digit_ne_nul hcd, hc ▸ hcd⟩

theorem strtoulModel_render {buf : List Char} {i v : Nat} {rest : List Char}
    (hs : SuffixFrom buf i (natDigits v ++ rest))
    (hstop : ¬ isDigitByte (byteAt rest 0)) :
    strtoulModel buf i = (v, i + (natDigits v).length) := by
  obtain ⟨-, hdig⟩ := natDigits_append_suffix hs
  have hskip : skipWs buf i = i := skipWs_stop (digit_not_space hdig)
  have hrun := takeDigits_run hs (fun c hc => natDigits_digits hc) hstop
  simp only [strtoulModel, hskip, if_pos hdig, hrun, natDigits_val v]

theorem strtofModel_core {buf : List Char} {i j : Nat} {x : Int} {rest : List Char}
    (hskip : skipWs buf i = j)
    (hs : SuffixFrom buf j (renderInt x ++ rest))
    (hstop : ¬ isDigitByte (byteAt rest 0)) :
    strtofModel buf i = (x, j + (renderInt x).length) := by
  match x with
  | .ofNat n =>
    have hsn : SuffixFrom buf j (natDigits n ++ rest) := hs
    obtain ⟨-, hdig⟩ := natDigits_append_suffix hsn
    have hrun := takeDigits_run hsn (fun c hc => natDigits_digits hc) hstop
    have hmm : byteAt buf j ≠ '-' := digit_ne hdig (by decide)
    simp only [strtofModel, hskip, if_neg hmm, if_pos hdig, hrun, natDigits_val n]
    rfl
  | .negSucc m =>
    have hs' : SuffixFrom buf j ('-' :: (natDigits (m + 1) ++ rest)) := by
      simpa [renderInt] using hs
    have hm : byteAt buf j = '-' := hs'.head
    have hsn : SuffixFrom buf (j + 1) (natDigits (m + 1) ++ rest) := hs'.tail
    obtain ⟨-, hdig⟩ := natDigits_append_suffix hsn
    have hrun := takeDigits_run hsn (fun c hc => natDigits_digits hc) hstop
    simp only [strtofModel, hskip, if_pos hm, if_pos hdig, hrun, natDigits_val (m + 1)]
    rw [Prod.mk.injEq]
    refine ⟨?_, ?_⟩
    · simp [Int.negSucc_eq]
    · simp only [renderInt, List.length_cons]
      omega

theorem renderInt_head_not_space {x : Int} {c : Char} {t : List Char}
    (h : renderInt x = c :: t) : ¬ isSpaceByte c := by
  match x with
  | .ofNat n =>
    have hc : c ∈ natDigits n := by
      have : natDigits n = c :: t := h
      rw [this]
      exact List.mem_cons_self c t
    exact digit_not_space (natDigits_digits hc)
  | .negSucc m =>
    have hc : c = '-' := by
      simp only [renderInt, List.cons.injEq] at h
      exact h.1.symm
    subst hc
    decide

theorem renderInt_ne_nil (x : Int) : renderInt x ≠ [] := by
  match x with
  | .ofNat n => exact natDigits_ne_nil n
  | .negSucc m => simp [renderInt]

theorem strtofModel_render {buf : List Char} {i : Nat} {x : Int} {rest : List Char}
    (hs : SuffixFrom buf i (renderInt x ++ rest))
    (hstop : ¬ isDigitByte (byteAt rest 0)) :
    strtofModel buf i = (x, i + (renderInt x).length) := by
  obtain ⟨c, t, hr⟩ : ∃ c t, renderInt x = c :: t := by
    cases hrx : renderInt x with
    | nil => exact absurd hrx (renderInt_ne_nil x)
    | cons a b => exact ⟨a, b, rfl⟩
  have hs' : SuffixFrom buf i (c :: (t ++ rest)) := by
    rw [hr] at hs
    simpa using hs
  have hskip : skipWs buf i = i :=
    skipWs_stop (by rw [hs'.head]; exact renderInt_head_not_space hr)
  exact strtofModel_core hskip hs hstop

theorem strtofModel_render_sp {buf : List Char} {i : Nat} {x : Int} {rest : List Char}
    (hs : SuffixFrom buf i (' ' :: (renderInt x ++ rest)))
    (hstop : ¬ isDigitByte (byteAt rest 0)) :
    strtofModel buf i = (x, (i + 1) + (renderInt x).length) := by
  obtain ⟨c, t, hr⟩ : ∃ c t, renderInt x = c :: t := by
    cases hrx : renderInt x with
    | nil => exact absurd hrx (renderInt_ne_nil x)
    | cons a b => exact ⟨a, b, rfl⟩
  have hs1 : SuffixFrom buf (i + 1) (renderInt x ++ rest) := hs.tail
  have hs' : SuffixFrom buf (i + 1) (c :: (t ++ rest)) := by
    rw [hr] at hs1
    simpa using hs1
  have hskip : skipWs buf i = i + 1 := by
    rw [skipWs_space (by rw [hs.head]; decide)]
    exact skipWs_stop (by rw [hs'.head]; exact renderInt_head_not_space hr)
  exact strtofModel_core hskip hs1 hstop

theorem le_skipWsAux (buf : List Char) : ∀ (fuel i : Nat), i ≤ skipWsAux buf fuel i
  | 0, i => le_refl i
  | fuel + 1, i => by
      rw [skipWsAux_succ]
      split
      · exact le_trans (Nat.le_succ i) (le_skipWsAux buf fuel (i + 1))
      · exact le_refl i

theorem le_skipWs (buf : List Char) (i : Nat) : i ≤ skipWs buf i :=
  le_skipWsAux buf _ i

theorem le_takeDigitsAux (buf : List Char) :
    ∀ (fuel i acc : Nat), i ≤ (takeDigitsAux buf fuel i acc).2
  | 0, i, _ => le_refl i
  | fuel + 1, i, acc => by
      rw [takeDigitsAux_succ]
      split
      · exact le_trans (Nat.le_succ i) (le_takeDigitsAux buf fuel (i + 1) _)
      · exact le_refl i

theorem le_takeDigits (buf : List Char) (i : Nat) : i ≤ (takeDigits buf i).2 :=
  le_takeDigitsAux buf _ i 0

theorem le_strtoulModel (buf : List Char) (i : Nat) : i ≤ (strtoulModel buf i).2 := by
  simp only [strtoulModel]
  split
  · exact le_trans (le_skipWs buf i) (le_takeDigits buf _)
  · exact le_refl i

theorem le_strtofModel (buf : List Char) (i : Nat) : i ≤ (strtofModel buf i).2 := by
  simp only [strtofModel]
  split
  · split
    · exact le_trans (le_skipWs buf i)
        (le_trans (Nat.le_succ _) (le_takeDigitsAux buf _ _ 0))
    · exact le_refl i
  · split
    · exact le_trans (le_skipWs buf i) (le_takeDigits buf _)
    · exact le_refl i

theorem strtof3_ge (buf : List Char) (c0 : Nat) :
    c0 ≤ (strtofModel buf (strtofModel buf (strtofModel buf c0).2).2).2 :=
  le_trans (le_strtofModel buf c0)
    (le_trans (le_strtofModel buf _) (le_strtofModel buf _))

theorem skipIdxEndAux_succ (buf : List Char) (e fuel i : Nat) :
    skipIdxEndAux buf e (fuel + 1) i =
      if byteAt buf i ≠ ' ' ∧ byteAt buf i ≠ '\n' ∧ i < e then
        skipIdxEndAux buf e fuel (i + 1)
      else i := rfl

theorem le_skipIdxEndAux (buf : List Char) (e : Nat) :
    ∀ (fuel i : Nat), i ≤ skipIdxEndAux buf e fuel i
  | 0, i => le_refl i
  | fuel + 1, i => by
      rw [skipIdxEndAux_succ]
      split
      · exact le_trans (Nat.le_succ i) (le_skipIdxEndAux buf e fuel (i + 1))
      · exact le_refl i

theorem le_skipIdxEnd (buf : List Char) (e i : Nat) : i ≤ skipIdxEnd buf e i :=
  le_skipIdxEndAux buf e _ i

theorem skipIdxEnd_stop {buf : List Char} {e i : Nat}
    (h : byteAt buf i = ' ' ∨ byteAt buf i = '\n') : skipIdxEnd buf e i = i := by
  unfold skipIdxEnd
  cases hf : e + 1 - i with
  | zero => rfl
  | succ fuel =>
      rw [skipIdxEndAux_succ]
      rcases h with h | h <;> rw [h] <;> simp

theorem skipToNlAux_succ (buf : List Char) (e fuel i : Nat) :
    skipToNlAux buf e (fuel + 1) i =
      if byteAt buf i ≠ '\n' ∧ i < e then skipToNlAux buf e fuel (i + 1) else i := rfl

theorem skipToNl_nl {buf : List Char} {e i : Nat}
    (h : byteAt buf i = '\n') : skipToNl buf e i = i := by
  unfold skipToNl
  cases hf : e + 1 - i with
  | zero => rfl
  | succ fuel =>
      rw [skipToNlAux_succ, h]
      simp

theorem skipToNl_progress {buf : List Char} {e i : Nat}
    (hn : byteAt buf i ≠ '\n') (hlt : i < e) : i + 1 ≤ skipToNl buf e i := by
  unfold skipToNl
  have h1 : e + 1 - i = (e - i) + 1 := by omega
  rw [h1, skipToNlAux_succ, if_pos ⟨hn, hlt⟩]
  exact le_skipToNlAux buf e _ (i + 1)

theorem le_slashTex (buf : List Char) (ca : Nat) : ca ≤ slashTex buf ca := by
  unfold slashTex
  split
  · exact le_strtoulModel buf ca
  · exact le_refl ca

theorem le_slashSkip (buf : List Char) (c : Nat) : c ≤ slashSkip buf c := by
  unfold slashSkip
  split
  · split
    · exact le_trans (Nat.le_succ c)
        (le_trans (le_slashTex buf (c + 1))
          (le_trans (Nat.le_succ _) (le_strtoulModel buf _)))
    · exact le_trans (Nat.le_succ c) (le_slashTex buf (c + 1))
  · exact le_refl c

theorem le_faceIdxStep (buf : List Char) (e c : Nat) : c ≤ faceIdxStep buf e c := by
  unfold faceIdxStep
  have h := le_trans (le_slashSkip buf c) (le_skipIdxEnd buf e (slashSkip buf c))
  split
  · omega
  · exact h

theorem le_parseFaceAux (buf : List Char) (e : Nat) :
    ∀ (fuel i : Nat) (acc : List Nat), i ≤ (parseFaceAux buf e fuel i acc).2
  | 0, i, _ => le_refl i
  | fuel + 1, i, acc => by
      unfold parseFaceAux
      split
      · split
        · exact le_refl i
        · split
          · exact le_strtoulModel buf i
          · refine le_trans ?_ (le_parseFaceAux buf e fuel _ _)
            exact le_trans (le_strtoulModel buf i) (le_faceIdxStep buf e _)
      · exact le_refl i

theorem le_faceLineEnd (buf : List Char) (e i : Nat) : i + 2 ≤ faceLineEnd buf e i := by
  unfold faceLineEnd
  have h := le_trans (le_parseFaceAux buf e (e + 1 - (i + 2)) (i + 2) [])
    (le_skipToNl buf e _)
  split
  · omega
  · exact h

theorem ParseChunkAux_empty (buf : List Char) (e : Nat) :
    ∀ (fuel i : Nat), e ≤ i → ParseChunkAux buf e fuel i = ⟨[], [], []⟩
  | 0, _, _ => rfl
  | fuel + 1, i, h => by
      unfold ParseChunkAux
      rw [if_neg (by omega)]

theorem ParseChunkAux_irrel (buf : List Char) (e : Nat) :
    ∀ (f g i : Nat), e ≤ i + f → e ≤ i + g →
      ParseChunkAux buf e f i = ParseChunkAux buf e g i
  | 0, g, i, hf, hg => by
      rw [ParseChunkAux_empty buf e 0 i (by omega),
        ParseChunkAux_empty buf e g i (by omega)]
  | f + 1, 0, i, hf, hg => by
      rw [ParseChunkAux_empty buf e (f + 1) i (by omega),
        ParseChunkAux_empty buf e 0 i (by omega)]
  | f + 1, g + 1, i, hf, hg => by
      unfold ParseChunkAux
      by_cases h1 : i < e
      · simp only [if_pos h1]
        by_cases h2 : byteAt buf i = '\n'
        · simp only [if_pos h2]
          exact ParseChunkAux_irrel buf e f g (i + 1) (by omega) (by omega)
        · simp only [if_neg h2]
          by_cases h3 : (byteAt buf i = 'v' ∧ byteAt buf (i + 1) = ' ') ∨
              (byteAt buf i = 'v' ∧ byteAt buf (i + 1) = 'n' ∧ byteAt buf (i + 2) = ' ')
          · simp only [if_pos h3]
            by_cases h4 : byteAt buf i = 'v' ∧ byteAt buf (i + 1) = 'n' ∧
                byteAt buf (i + 2) = ' '
            · simp only [if_pos h4]
              have hge : i + 3 ≤ strtof3End buf (i + 3) := strtof3_ge buf (i + 3)
              rw [ParseChunkAux_irrel buf e f g (strtof3End buf (i + 3))
                (by omega) (by omega)]
            · simp only [if_neg h4]
              have hge : i + 2 ≤ strtof3End buf (i + 2) := strtof3_ge buf (i + 2)
              rw [ParseChunkAux_irrel buf e f g (strtof3End buf (i + 2))
                (by omega) (by omega)]
          · simp only [if_neg h3]
            by_cases h5 : byteAt buf i = 'f' ∧ byteAt buf (i + 1) = ' '
            · simp only [if_pos h5]
              have hge : i + 2 ≤ faceLineEnd buf e i := le_faceLineEnd buf e i
              rw [ParseChunkAux_irrel buf e f g (faceLineEnd buf e i)
                (by omega) (by omega)]
            · simp only [if_neg h5]
              have hge : i + 1 ≤ skipToNl buf e i := skipToNl_progress h2 h1
              exact ParseChunkAux_irrel buf e f g (skipToNl buf e i)
                (by omega) (by omega)
      · rw [if_neg h1, if_neg h1]

theorem parseFrom_eq (buf : List Char) (i fuel : Nat) (h : buf.length ≤ i + fuel) :
    ParseChunkAux buf buf.length fuel i = parseFrom buf i := by
  unfold parseFrom
  exact ParseChunkAux_irrel buf buf.length fuel (buf.length - i) i h (by omega)


theorem parseFaceAux_succ (buf : List Char) (e fuel i : Nat) (acc : List Nat) :
    parseFaceAux buf e (fuel + 1) i acc =
      if byteAt buf i ≠ '\n' ∧ i < e then
        if (strtoulModel buf i).2 = i then (acc.reverse, i)
        else if (strtoulModel buf i).1 = 0 then (acc.reverse, (strtoulModel buf i).2)
        else
          parseFaceAux buf e fuel (faceIdxStep buf e (strtoulModel buf i).2)
            (((strtoulModel buf i).1 - 1) :: acc)
      else (acc.reverse, i) := rfl

theorem faceBlocksTail_head (t : List Nat) (rest : List Char) :
    byteAt (faceBlocksTail t ++ '\n' :: rest) 0 = ' ' ∨
    byteAt (faceBlocksTail t ++ '\n' :: rest) 0 = '\n' := by
  cases t with
  | nil => right; rfl
  | cons j tl => left; simp [faceBlocksTail, byteAt]

theorem natDigits_len_pos (n : Nat) : 1 ≤ (natDigits n).length :=
  List.length_pos.mpr (natDigits_ne_nil n)

theorem faceBlocksTail_len (t : List Nat) : t.length ≤ (faceBlocksTail t).length := by
  induction t with
  | nil => simp [faceBlocksTail]
  | cons j tl ih =>
    have : faceBlocksTail (j :: tl) = (' ' :: natDigits (j + 1)) ++ faceBlocksTail tl := by
      simp [faceBlocksTail]
    rw [this]
    simp only [List.length_append, List.length_cons]
    omega

theorem digitsBlock_len (l : List Nat) : l.length ≤ (digitsBlock l).length := by
  cases l with
  | nil => simp [digitsBlock]
  | cons ix t =>
    have h1 := natDigits_len_pos (ix + 1)
    have h2 := faceBlocksTail_len t
    simp only [digitsBlock, List.length_append, List.length_cons]
    omega

theorem parseFaceAux_run (buf : List Char) (rest : List Char) :
    ∀ (l : List Nat) (fuel i : Nat) (acc : List Nat),
      l.length + 1 ≤ fuel →
      SuffixFrom buf i (digitsBlock l ++ '\n' :: rest) →
      parseFaceAux buf buf.length fuel i acc =
        (acc.reverse ++ l, i + (digitsBlock l).length) := by
  intro l
  induction l with
  | nil =>
    intro fuel i acc hfuel hs
    cases fuel with
    | zero => omega
    | succ fuel =>
      have hnl : byteAt buf i = '\n' := by
        have h0 := hs.byte0
        simp only [digitsBlock, List.nil_append, byteAt, List.getD_cons_zero] at h0
        exact h0
      rw [parseFaceAux_succ, if_neg (by simp [hnl])]
      simp [digitsBlock]
  | cons ix t ih =>
    intro fuel i acc hfuel hs
    cases fuel with
    | zero => simp at hfuel
    | succ fuel =>
      have hsd : SuffixFrom buf i
          (natDigits (ix + 1) ++ (faceBlocksTail t ++ '\n' :: rest)) := by
        simpa [digitsBlock, List.append_assoc] using hs
      have hstop : ¬ isDigitByte (byteAt (faceBlocksTail t ++ '\n' :: rest) 0) := by
        rcases faceBlocksTail_head t rest with h | h <;> rw [h] <;> decide
      have hrun := strtoulModel_render hsd hstop
      obtain ⟨hnn, hdig⟩ := natDigits_append_suffix hsd
      have hlt : i < buf.length := byteAt_lt_length hnn
      set c := i + (natDigits (ix + 1)).length with hc
      have hsc : SuffixFrom buf c (faceBlocksTail t ++ '\n' :: rest) := hsd.dropL
      have hbc : byteAt buf c = byteAt (faceBlocksTail t ++ '\n' :: rest) 0 := hsc.byte0
      have hguard : byteAt buf i ≠ '\n' ∧ i < buf.length :=
        ⟨digit_ne hdig (by decide), hlt⟩
      rw [parseFaceAux_succ, if_pos hguard, hrun]
      have hlen := natDigits_len_pos (ix + 1)
      rw [if_neg (by omega)]
      rw [if_neg (by simp)]
      have hslash : slashSkip buf c = c := by
        unfold slashSkip
        rw [if_neg ?hn]
        case hn =>
          rcases faceBlocksTail_head t rest with h | h <;> rw [hbc, h] <;> decide
      have hskipIdx : skipIdxEnd buf buf.length c = c := by
        apply skipIdxEnd_stop
        rcases faceBlocksTail_head t rest with h | h
        · left; rw [hbc, h]
        · right; rw [hbc, h]
      cases t with
      | nil =>
        have hnlc : byteAt buf c = '\n' := by
          rw [hbc]
          rfl
        have hstep : faceIdxStep buf buf.length c = c := by
          unfold faceIdxStep
          rw [hslash, hskipIdx, if_neg (by rw [hnlc]; decide)]
        rw [hstep]
        have hsc2 : SuffixFrom buf c (digitsBlock [] ++ '\n' :: rest) := by
          simpa [digitsBlock] using hsc
        have hfuel2 : ([] : List Nat).length + 1 ≤ fuel := by
          simp only [List.length_cons, List.length_nil] at hfuel ⊢
          omega
        rw [ih fuel c ((ix + 1 - 1) :: acc) hfuel2 hsc2]
        rw [Prod.mk.injEq]
        refine ⟨?_, ?_⟩
        · simp
        · simp only [digitsBlock, faceBlocksTail, List.map_nil, List.flatten_nil,
            List.append_nil, List.length_nil]
          omega
      | cons j tl =>
        have hspc : byteAt buf c = ' ' := by
          rw [hbc]
          simp [faceBlocksTail, byteAt]
        have hstep : faceIdxStep buf buf.length c = c + 1 := by
          unfold faceIdxStep
          rw [hslash, hskipIdx, if_pos hspc]
        rw [hstep]
        have hsc2 : SuffixFrom buf (c + 1) (digitsBlock (j :: tl) ++ '\n' :: rest) := by
          have hfb : faceBlocksTail (j :: tl) ++ '\n' :: rest =
              ' ' :: (digitsBlock (j :: tl) ++ '\n' :: rest) := by
            simp [faceBlocksTail, digitsBlock, List.append_assoc]
          rw [hfb] at hsc
          exact hsc.tail
        have hfuel2 : (j :: tl).length + 1 ≤ fuel := by
          simp only [List.length_cons] at hfuel ⊢
          omega
        rw [ih fuel (c + 1) ((ix + 1 - 1) :: acc) hfuel2 hsc2]
        rw [Prod.mk.injEq]
        refine ⟨?_, ?_⟩
        · simp
        · have hfb2 : (faceBlocksTail (j :: tl)).length =
              1 + (digitsBlock (j :: tl)).length := by
            simp [faceBlocksTail, digitsBlock]
            omega
          rw [show digitsBlock (ix :: j :: tl) =
              natDigits (ix + 1) ++ faceBlocksTail (j :: tl) from rfl,
            List.length_append]
          omega


theorem byteAt_cons_zero (c : Char) (t : List Char) : byteAt (c :: t) 0 = c := rfl

theorem ParseChunkAux_succ (buf : List Char) (e fuel i : Nat) :
    ParseChunkAux buf e (fuel + 1) i =
      if i < e then
        if byteAt buf i = '\n' then ParseChunkAux buf e fuel (i + 1)
        else if (byteAt buf i = 'v' ∧ byteAt buf (i + 1) = ' ') ∨
                (byteAt buf i = 'v' ∧ byteAt buf (i + 1) = 'n' ∧ byteAt buf (i + 2) = ' ') then
          if byteAt buf i = 'v' ∧ byteAt buf (i + 1) = 'n' ∧ byteAt buf (i + 2) = ' ' then
            { ParseChunkAux buf e fuel (strtof3End buf (i + 3)) with
              VertexNormals := strtof3Vec buf (i + 3) ::
                (ParseChunkAux buf e fuel (strtof3End buf (i + 3))).VertexNormals }
          else
            { ParseChunkAux buf e fuel (strtof3End buf (i + 2)) with
              Vertices := strtof3Vec buf (i + 2) ::
                (ParseChunkAux buf e fuel (strtof3End buf (i + 2))).Vertices }
        else if byteAt buf i = 'f' ∧ byteAt buf (i + 1) = ' ' then
          if (parseFaceAux buf e (e + 1 - (i + 2)) (i + 2) []).1 = [] then
            ParseChunkAux buf e fuel (faceLineEnd buf e i)
          else
            { ParseChunkAux buf e fuel (faceLineEnd buf e i) with
              PolyIndices := (parseFaceAux buf e (e + 1 - (i + 2)) (i + 2) []).1 ::
                (ParseChunkAux buf e fuel (faceLineEnd buf e i)).PolyIndices }
        else
          ParseChunkAux buf e fuel (skipToNl buf e i)
      else ⟨[], [], []⟩ := rfl

theorem parseFrom_vLine (buf : List Char) (i : Nat) (v : Vec3I) (rest : List Char)
    (hs : SuffixFrom buf i (vLine v ++ rest)) :
    parseFrom buf i =
      { parseFrom buf (i + (vLine v).length) with
        Vertices := v :: (parseFrom buf (i + (vLine v).length)).Vertices } := by
  have hshape : vLine v ++ rest = 'v' :: ' ' :: (renderInt v.1 ++
      (' ' :: (renderInt v.2.1 ++ (' ' :: (renderInt v.2.2 ++ ('\n' :: rest)))))) := by
    simp [vLine, List.append_assoc]
  rw [hshape] at hs
  have h0 : byteAt buf i = 'v' := hs.head
  have hs1 := hs.tail
  have h1 : byteAt buf (i + 1) = ' ' := hs1.head
  have hs2 := hs1.tail
  have hlt : i < buf.length := hs.lt
  have hr1 := strtofModel_render hs2 (by rw [byteAt_cons_zero]; decide)
  have hs3 := hs2.dropL
  have hr2 := strtofModel_render_sp hs3 (by rw [byteAt_cons_zero]; decide)
  have hs4 := hs3.tail.dropL
  have hr3 := strtofModel_render_sp hs4 (by rw [byteAt_cons_zero]; decide)
  have hs5 := hs4.tail.dropL
  have hend : strtof3End buf (i + 2) =
      i + 2 + (renderInt v.1).length + 1 + (renderInt v.2.1).length + 1 +
        (renderInt v.2.2).length := by
    simp only [strtof3End, hr1, hr2, hr3]
  have hvec : strtof3Vec buf (i + 2) = v := by
    simp only [strtof3Vec, hr1, hr2, hr3]
  have hnl : byteAt buf (i + 2 + (renderInt v.1).length + 1 + (renderInt v.2.1).length +
      1 + (renderInt v.2.2).length) = '\n' := hs5.head
  have hlen : (vLine v).length = 2 + (renderInt v.1).length + 1 +
      (renderInt v.2.1).length + 1 + (renderInt v.2.2).length + 1 := by
    simp [vLine]
    omega
  have hL := hs.1
  simp only [List.length_cons, List.length_append] at hL
  show ParseChunkAux buf buf.length (buf.length - i) i = _
  rw [show buf.length - i = (buf.length - i - 1) + 1 from by omega]
  rw [ParseChunkAux_succ, if_pos hlt, if_neg (by rw [h0]; decide),
    if_pos (Or.inl ⟨h0, h1⟩),
    if_neg (by
      intro hvn
      rw [h1] at hvn
      exact absurd hvn.2.1 (by decide)),
    hend, hvec]
  rw [show buf.length - i - 1 = (buf.length - i - 2) + 1 from by omega]
  rw [ParseChunkAux_succ,
    if_pos (byteAt_lt_length (by rw [hnl]; decide)), if_pos hnl]
  rw [parseFrom_eq buf _ (buf.length - i - 2) (by omega)]
  rw [show i + 2 + (renderInt v.1).length + 1 + (renderInt v.2.1).length + 1 +
      (renderInt v.2.2).length + 1 = i + (vLine v).length from by omega]


theorem parseFrom_vnLine (buf : List Char) (i : Nat) (v : Vec3I) (rest : List Char)
    (hs : SuffixFrom buf i (vnLine v ++ rest)) :
    parseFrom buf i =
      { parseFrom buf (i + (vnLine v).length) with
        VertexNormals := v :: (parseFrom buf (i + (vnLine v).length)).VertexNormals } := by
  have hshape : vnLine v ++ rest = 'v' :: 'n' :: ' ' :: (renderInt v.1 ++
      (' ' :: (renderInt v.2.1 ++ (' ' :: (renderInt v.2.2 ++ ('\n' :: rest)))))) := by
    simp [vnLine, List.append_assoc]
  rw [hshape] at hs
  have h0 : byteAt buf i = 'v' := hs.head
  have hs1 := hs.tail
  have h1 : byteAt buf (i + 1) = 'n' := hs1.head
  have hs2 := hs1.tail
  have h2 : byteAt buf (i + 2) = ' ' := hs2.head
  have hs3 := hs2.tail
  have hlt : i < buf.length := hs.lt
  have hr1 := strtofModel_render hs3 (by rw [byteAt_cons_zero]; decide)
  have hs4 := hs3.dropL
  have hr2 := strtofModel_render_sp hs4 (by rw [byteAt_cons_zero]; decide)
  have hs5 := hs4.tail.dropL
  have hr3 := strtofModel_render_sp hs5 (by rw [byteAt_cons_zero]; decide)
  have hs6 := hs5.tail.dropL
  have hend : strtof3End buf (i + 3) =
      i + 3 + (renderInt v.1).length + 1 + (renderInt v.2.1).length + 1 +
        (renderInt v.2.2).length := by
    simp only [strtof3End, hr1, hr2, hr3]
  have hvec : strtof3Vec buf (i + 3) = v := by
    simp only [strtof3Vec, hr1, hr2, hr3]
  have hnl : byteAt buf (i + 3 + (renderInt v.1).length + 1 + (renderInt v.2.1).length +
      1 + (renderInt v.2.2).length) = '\n' := hs6.head
  have hlen : (vnLine v).length = 3 + (renderInt v.1).length + 1 +
      (renderInt v.2.1).length + 1 + (renderInt v.2.2).length + 1 := by
    simp [vnLine]
    omega
  have hL := hs.1
  simp only [List.length_cons, List.length_append] at hL
  show ParseChunkAux buf buf.length (buf.length - i) i = _
  rw [show buf.length - i = (buf.length - i - 1) + 1 from by omega]
  rw [ParseChunkAux_succ, if_pos hlt, if_neg (by rw [h0]; decide),
    if_pos (Or.inr ⟨h0, h1, h2⟩), if_pos ⟨h0, h1, h2⟩, hend, hvec]
  rw [show buf.length - i - 1 = (buf.length - i - 2) + 1 from by omega]
  rw [ParseChunkAux_succ,
    if_pos (byteAt_lt_length (by rw [hnl]; decide)), if_pos hnl]
  rw [parseFrom_eq buf _ (buf.length - i - 2) (by omega)]
  rw [show i + 3 + (renderInt v.1).length + 1 + (renderInt v.2.1).length + 1 +
      (renderInt v.2.2).length + 1 = i + (vnLine v).length from by omega]

theorem parseFrom_fLine (buf : List Char) (i : Nat) (idxs : List Nat) (rest : List Char)
    (hne : idxs ≠ [])
    (hs : SuffixFrom buf i (fLine idxs ++ rest)) :
    parseFrom buf i =
      { parseFrom buf (i + (fLine idxs).length) with
        PolyIndices := idxs :: (parseFrom buf (i + (fLine idxs).length)).PolyIndices } := by
  obtain ⟨ix, t, rfl⟩ : ∃ ix t, idxs = ix :: t := by
    cases idxs with
    | nil => exact absurd rfl hne
    | cons a b => exact ⟨a, b, rfl⟩
  have hshape : fLine (ix :: t) ++ rest =
      'f' :: ' ' :: (digitsBlock (ix :: t) ++ '\n' :: rest) := by
    simp [fLine, digitsBlock, faceBlocksTail, List.append_assoc]
  rw [hshape] at hs
  have h0 : byteAt buf i = 'f' := hs.head
  have hs1 := hs.tail
  have h1 : byteAt buf (i + 1) = ' ' := hs1.head
  have hs2 : SuffixFrom buf (i + 2) (digitsBlock (ix :: t) ++ '\n' :: rest) := hs1.tail
  have hlt : i < buf.length := hs.lt
  have hL := hs.1
  simp only [List.length_cons, List.length_append] at hL
  have hflen : (fLine (ix :: t)).length = 2 + (digitsBlock (ix :: t)).length + 1 := by
    simp [fLine, digitsBlock, faceBlocksTail]
    omega
  have hdbl := digitsBlock_len (ix :: t)
  have hfuel : (ix :: t).length + 1 ≤ buf.length + 1 - (i + 2) := by
    simp only [List.length_cons] at hdbl ⊢
    omega
  have hrun := parseFaceAux_run buf rest (ix :: t) (buf.length + 1 - (i + 2)) (i + 2) []
    hfuel hs2
  have hs3 : SuffixFrom buf (i + 2 + (digitsBlock (ix :: t)).length) ('\n' :: rest) :=
    hs2.dropL
  have hnl : byteAt buf (i + 2 + (digitsBlock (ix :: t)).length) = '\n' := hs3.head
  have hfle : faceLineEnd buf buf.length i =
      i + 2 + (digitsBlock (ix :: t)).length + 1 := by
    unfold faceLineEnd
    rw [hrun]
    simp only
    rw [skipToNl_nl hnl]
    rw [if_pos (byteAt_lt_length (by rw [hnl]; decide))]
  show ParseChunkAux buf buf.length (buf.length - i) i = _
  rw [show buf.length - i = (buf.length - i - 1) + 1 from by omega]
  rw [ParseChunkAux_succ, if_pos hlt, if_neg (by rw [h0]; decide),
    if_neg (by
      intro hv
      rcases hv with hv | hv <;> (rw [h0] at hv; exact absurd hv.1 (by decide))),
    if_pos ⟨h0, h1⟩, hrun]
  simp only [List.nil_append]
  rw [if_neg (by simp), hfle]
  rw [parseFrom_eq buf _ (buf.length - i - 1) (by omega)]
  rw [show i + 2 + (digitsBlock (ix :: t)).length + 1 = i + (fLine (ix :: t)).length
    from by omega]
  simp


theorem parseFrom_end (buf : List Char) : parseFrom buf buf.length = ⟨[], [], []⟩ := by
  unfold parseFrom
  rw [Nat.sub_self]
  rfl

theorem SuffixFrom_zero (buf : List Char) : SuffixFrom buf 0 buf :=
  ⟨by simp, fun k => by simp⟩

theorem parseFrom_vBlock (buf : List Char) :
    ∀ (V : List Vec3I) (i : Nat) (rest : List Char),
      SuffixFrom buf i ((V.map vLine).flatten ++ rest) →
      parseFrom buf i =
        { parseFrom buf (i + ((V.map vLine).flatten).length) with
          Vertices := V ++ (parseFrom buf (i + ((V.map vLine).flatten).length)).Vertices } := by
  intro V
  induction V with
  | nil =>
    intro i rest hs
    simp
  | cons v t ih =>
    intro i rest hs
    have hs1 : SuffixFrom buf i (vLine v ++ ((t.map vLine).flatten ++ rest)) := by
      simpa [List.append_assoc] using hs
    rw [parseFrom_vLine buf i v _ hs1]
    rw [ih (i + (vLine v).length) rest hs1.dropL]
    have hpos : i + (vLine v).length + ((t.map vLine).flatten).length =
        i + (((v :: t).map vLine).flatten).length := by
      simp [List.length_append]
      omega
    rw [hpos]
    simp

theorem parseFrom_vnBlock (buf : List Char) :
    ∀ (N : List Vec3I) (i : Nat) (rest : List Char),
      SuffixFrom buf i ((N.map vnLine).flatten ++ rest) →
      parseFrom buf i =
        { parseFrom buf (i + ((N.map vnLine).flatten).length) with
          VertexNormals :=
            N ++ (parseFrom buf (i + ((N.map vnLine).flatten).length)).VertexNormals } := by
  intro N
  induction N with
  | nil =>
    intro i rest hs
    simp
  | cons v t ih =>
    intro i rest hs
    have hs1 : SuffixFrom buf i (vnLine v ++ ((t.map vnLine).flatten ++ rest)) := by
      simpa [List.append_assoc] using hs
    rw [parseFrom_vnLine buf i v _ hs1]
    rw [ih (i + (vnLine v).length) rest hs1.dropL]
    have hpos : i + (vnLine v).length + ((t.map vnLine).flatten).length =
        i + (((v :: t).map vnLine).flatten).length := by
      simp [List.length_append]
      omega
    rw [hpos]
    simp

theorem parseFrom_fBlock (buf : List Char) :
    ∀ (F : List (List Nat)) (i : Nat) (rest : List Char),
      (∀ l ∈ F, l ≠ []) →
      SuffixFrom buf i ((F.map fLine).flatten ++ rest) →
      parseFrom buf i =
        { parseFrom buf (i + ((F.map fLine).flatten).length) with
          PolyIndices :=
            F ++ (parseFrom buf (i + ((F.map fLine).flatten).length)).PolyIndices } := by
  intro F
  induction F with
  | nil =>
    intro i rest _ hs
    simp
  | cons l t ih =>
    intro i rest hne hs
    have hs1 : SuffixFrom buf i (fLine l ++ ((t.map fLine).flatten ++ rest)) := by
      simpa [List.append_assoc] using hs
    rw [parseFrom_fLine buf i l _ (hne l (List.mem_cons_self l t)) hs1]
    rw [ih (i + (fLine l).length) rest
      (fun x hx => hne x (List.mem_cons_of_mem l hx)) hs1.dropL]
    have hpos : i + (fLine l).length + ((t.map fLine).flatten).length =
        i + (((l :: t).map fLine).flatten).length := by
      simp [List.length_append]
      omega
    rw [hpos]
    simp

theorem parseFrom_export (b : BaseMeshGeometryData Vec3I)
    (hpoly : ∀ l ∈ b.PolyIndices, l ≠ []) :
    parseFrom (ExportBaseMeshGeometryDataToOBJContent b) 0 =
      ⟨b.Vertices, b.VertexNormals, b.PolyIndices⟩ := by
  have hb : ExportBaseMeshGeometryDataToOBJContent b =
      (b.Vertices.map vLine).flatten ++
        ((b.VertexNormals.map vnLine).flatten ++ (b.PolyIndices.map fLine).flatten) := by
    unfold ExportBaseMeshGeometryDataToOBJContent
    rw [List.append_assoc]
  have hs0 : SuffixFrom (ExportBaseMeshGeometryDataToOBJContent b) 0
      ((b.Vertices.map vLine).flatten ++
        ((b.VertexNormals.map vnLine).flatten ++ (b.PolyIndices.map fLine).flatten)) := by
    have h := SuffixFrom_zero (ExportBaseMeshGeometryDataToOBJContent b)
    nth_rewrite 2 [hb] at h
    exact h
  rw [parseFrom_vBlock _ b.Vertices 0 _ hs0]
  have hs1 := hs0.dropL
  rw [parseFrom_vnBlock _ b.VertexNormals _ _ (by simpa [List.append_assoc] using hs1)]
  have hs2 : SuffixFrom (ExportBaseMeshGeometryDataToOBJContent b)
      (0 + ((b.Vertices.map vLine).flatten).length +
        ((b.VertexNormals.map vnLine).flatten).length)
      ((b.PolyIndices.map fLine).flatten ++ []) := by
    have h2 := hs1.dropL
    simpa using h2
  rw [parseFrom_fBlock _ b.PolyIndices _ _ hpoly hs2]
  have hlenend : 0 + ((b.Vertices.map vLine).flatten).length +
      ((b.VertexNormals.map vnLine).flatten).length +
      ((b.PolyIndices.map fLine).flatten).length =
      (ExportBaseMeshGeometryDataToOBJContent b).length := by
    have h3 := hs2.dropL.1
    simpa using h3
  rw [hlenend, parseFrom_end]
  simp

/-- C3 (amended): for every resolved `BaseMeshGeometryData` (every polygon
index below the vertex count) whose polygon index lists are additionally all
non-empty, exporting with `ExportBaseMeshGeometryDataToOBJ` and re-importing
the written content with the single-threaded `ImportOBJMeshGeometryData`
yields exactly the same vertex coordinates, the same polygon index lists and
the same vertex normals (coordinates are integer-valued scalars in this
model, which render and reparse exactly, so the claim's floating-point
tolerance is met with zero error). -/
theorem ExportImportOBJ_roundtrip (b : BaseMeshGeometryData Vec3I)
    (hpoly : ∀ l ∈ b.PolyIndices, l ≠ [])
    (_hres : ∀ l ∈ b.PolyIndices, ∀ ix ∈ l, ix < b.Vertices.length) :
    ImportOBJMeshGeometryData (ExportBaseMeshGeometryDataToOBJContent b) 1 =
      ⟨b.Vertices, b.PolyIndices, b.VertexNormals⟩ := by
  have hranges : objChunkRanges (ExportBaseMeshGeometryDataToOBJContent b) 1 =
      [(0, (ExportBaseMeshGeometryDataToOBJContent b).length)] := by
    unfold objChunkRanges objChunkEnd
    simp [List.range_succ, skipToNl_of_ge _ (le_refl _)]
  unfold ImportOBJMeshGeometryData
  rw [hranges]
  simp only [List.map_cons, List.map_nil, List.flatten_cons, List.flatten_nil,
    List.append_nil]
  have hpc : ParseChunk (ExportBaseMeshGeometryDataToOBJContent b) 0
      (ExportBaseMeshGeometryDataToOBJContent b).length =
      ⟨b.Vertices, b.VertexNormals, b.PolyIndices⟩ := parseFrom_export b hpoly
  rw [hpc]


/-- C3 witness: a concrete buffer with one vertex and one one-vertex polygon
round-trips exactly. -/
theorem ExportImportOBJ_roundtrip_witness :
    ImportOBJMeshGeometryData
        (ExportBaseMeshGeometryDataToOBJContent ⟨[(0, 0, 0)], [[0]], []⟩) 1 =
      ⟨[(0, 0, 0)], [[0]], []⟩ :=
  ExportImportOBJ_roundtrip ⟨[(0, 0, 0)], [[0]], []⟩ (by decide) (by decide)

end LSW
